import Mathlib

/-!
# Verification of `ProjectA/matrix.py` (LU decomposition with backtracking pivot search)

This file gives a shallow embedding of every function of `src/ProjectA/matrix.py`
that the claims refer to, and proves or refutes the claims about them.

Modelling conventions:
* numpy matrices of floats are modelled as functions `Nat → Nat → ℚ` together with an
  explicit size `nn`; exact rational arithmetic stands in for floating point
  ("exact equality when arithmetic is interpreted exactly").
* Division is Lean's total division on `ℚ` (`q / 0 = 0`); every claim that depends on a
  division is either conditioned on the divisor being nonzero or refuted by a
  counterexample that breaks down in any reading of division by zero.
* Python lists mutated in place (`used`, `P`) are passed and returned explicitly.
* The mutually recursive re-pivoting search is not structurally terminating (and indeed
  does not terminate on some inputs), so it takes a fuel parameter; `PRes.timeout`
  means the fuel ran out and poisons the whole computation, faithfully representing a
  Python run that is still recursing.  Python exceptions are the `PRes.err` outcome.
-/

/-- The Python exceptions that `matrix.py` can raise. -/
inductive PyErr where
  /-- The `ValueError` with the unpivotable-matrix message raised by `_pivot`. -/
  | colOfZeros : PyErr
  /-- `ValueError` raised by `list.index` when the element is absent. -/
  | indexValueError : PyErr
  /-- `IndexError` raised by `v[0]` in `_det_P` on an empty list. -/
  | indexError : PyErr
  deriving DecidableEq

/-- Outcome of running a piece of fuelled Python code: `timeout` = the fuel bound was hit
(the real program is still running), `err e` = a Python exception `e` was raised,
`ok a` = normal return of `a`. -/
inductive PRes (α : Type) where
  | timeout : PRes α
  | err : PyErr → PRes α
  | ok : α → PRes α
  deriving DecidableEq

/-- An n×n numeric buffer: entry `(i, j)` is `M i j`.  Only indices below the
explicit size `nn` are meaningful. -/
def Mat : Type := Nat → Nat → ℚ

/-- Pointwise update of one matrix entry (`M[i, j] = v`). -/
def setM (A : Mat) (i j : Nat) (v : ℚ) : Mat :=
  fun a b => if a = i ∧ b = j then v else A a b

/-- Matrix product restricted to the top-left `nn × nn` block (`numpy` `*` on `np.matrix`). -/
def matMul (nn : Nat) (A B : Mat) : Mat :=
  fun i j => ∑ k ∈ Finset.range nn, A i k * B k j

/-- Matrix–vector product restricted to the first `nn` coordinates. -/
def matVec (nn : Nat) (A : Mat) (v : Nat → ℚ) : Nat → ℚ :=
  fun i => ∑ k ∈ Finset.range nn, A i k * v k

/-- The `nn × nn` identity matrix. -/
def idMat : Mat := fun i j => if i = j then 1 else 0

/-- `M` has a two-sided inverse on the `nn × nn` block: the meaning of "invertible"
used by the spec's testable properties. -/
def MatInvertible (nn : Nat) (M : Mat) : Prop :=
  ∃ N : Mat, (∀ i < nn, ∀ j < nn, matMul nn M N i j = idMat i j) ∧
    (∀ i < nn, ∀ j < nn, matMul nn N M i j = idMat i j)

/-! ## The pivot search (`_pivot`, `_check_unused`, `_repivot_used`) -/

/-- Mutable search state of `_pivot`: the Python lists `used` (rows already taken)
and `P` (provisional permutation, `P[col] = row`). -/
structure PivSt where
  used : List Nat
  P : List Nat
  deriving DecidableEq

/-- Ordering used by `entries.sort(reverse=True)` on `(value, row)` pairs:
descending lexicographic, i.e. `x` comes before `y` when `x ≥ y` lexicographically. -/
def entryGE (x y : ℚ × Nat) : Prop :=
  y.1 < x.1 ∨ (x.1 = y.1 ∧ y.2 ≤ x.2)

instance : DecidableRel entryGE := fun x y => by
  unfold entryGE; infer_instance

instance : IsTotal (ℚ × Nat) entryGE := by
  constructor
  intro a b
  rcases lt_trichotomy a.1 b.1 with h | h | h
  · exact Or.inr (Or.inl h)
  · rcases Nat.le_total b.2 a.2 with h2 | h2
    · exact Or.inl (Or.inr ⟨h, h2⟩)
    · exact Or.inr (Or.inr ⟨h.symm, h2⟩)
  · exact Or.inl (Or.inl h)

instance : IsTrans (ℚ × Nat) entryGE := by
  constructor
  rintro a b c (hab | ⟨hab, hab2⟩) (hbc | ⟨hbc, hbc2⟩)
  · exact Or.inl (hbc.trans hab)
  · exact Or.inl (hbc ▸ hab)
  · exact Or.inl (hab ▸ hbc)
  · exact Or.inr ⟨hab.trans hbc, le_trans hbc2 hab2⟩

/-- `P[col] = row` with Python's `try/except IndexError: P.append(row)` semantics:
an in-range index is overwritten, otherwise the row is appended at the end. -/
def setPy (P : List Nat) (col r : Nat) : List Nat :=
  if col < P.length then P.set col r else P ++ [r]

/-- The `entries` list built by `_check_unused`: `(M[row, col], row)` for every row
below `nn` that is not in `used` and has a nonzero entry in column `col`. -/
def unusedEntries (M : Mat) (nn col : Nat) (st : PivSt) : List (ℚ × Nat) :=
  ((List.range nn).filter
    (fun i => decide (i ∉ st.used) && decide (M i col ≠ 0))).map (fun r => (M r col, r))

/-- Embeds `_check_unused(col, M, used, P)`.  Collects `(M[row, col], row)` for all
unused rows with a nonzero entry in `col`; if any exist, sorts descending and takes
the first (largest value, ties broken by larger row), appends the row to `used` and
stores it at `P[col]`.  Returns the success flag and the updated state. -/
def checkUnused (M : Mat) (nn col : Nat) (st : PivSt) : Bool × PivSt :=
  if (unusedEntries M nn col st).isEmpty then (false, st)
  else
    match (unusedEntries M nn col st).insertionSort entryGE with
    | [] => (false, st)   -- unreachable: sorting a nonempty list is nonempty
    | e :: _ => (true, ⟨st.used ++ [e.2], setPy st.P col e.2⟩)

/-- Python's `list.index`: the first index at which `a` occurs, `none` when absent
(where Python raises `ValueError`). -/
def pyIndex (a : Nat) : List Nat → Option Nat
  | [] => none
  | b :: l => if b = a then some 0 else (pyIndex a l).map (· + 1)

/-- The `entries` list built at the top of `_repivot_used`: all `(M[row, col], row)` for
rows in `used` (in order) with a nonzero entry in `col` and not already assigned to
this very column; `P.index(row)` raises when the row is not in `P`. -/
def repivotEntries (M : Mat) (col : Nat) (P : List Nat) :
    List Nat → Except PyErr (List (ℚ × Nat))
  | [] => .ok []
  | r :: rest =>
    if M r col ≠ 0 then
      match pyIndex r P with
      | none => .error .indexValueError
      | some i =>
        if i ≠ col then (repivotEntries M col P rest).map (fun l => (M r col, r) :: l)
        else repivotEntries M col P rest
    else repivotEntries M col P rest

/-- First loop of `_repivot_used`: for each candidate, try to free its current column
`used_col` by direct assignment; on the first success, award the candidate row to
`col` and return `True`.  Failing `_check_unused` calls leave the state unchanged. -/
def rpLoop1 (M : Mat) (nn col : Nat) (st : PivSt) :
    List (ℚ × Nat) → PRes (Bool × PivSt)
  | [] => .ok (false, st)
  | e :: rest =>
    match pyIndex e.2 st.P with
    | none => .err .indexValueError
    | some uc =>
      match checkUnused M nn uc st with
      | (true, st1) => .ok (true, ⟨st1.used, setPy st1.P col e.2⟩)
      | (false, _) => rpLoop1 M nn col st rest

/-- Second loop of `_repivot_used`, parametrized by the recursive call `rec`
(instantiated with `repivotUsed` at the remaining fuel): recursively re-pivot the
candidate's current column; on the first success, award the candidate row to `col`. -/
def rpLoop2 (M : Mat) (nn : Nat) (rec : Nat → PivSt → PRes (Bool × PivSt))
    (col : Nat) (st : PivSt) : List (ℚ × Nat) → PRes (Bool × PivSt)
  | [] => .ok (false, st)
  | e :: rest =>
    match pyIndex e.2 st.P with
    | none => .err .indexValueError
    | some uc =>
      match rec uc st with
      | .timeout => .timeout
      | .err m => .err m
      | .ok (true, st1) => .ok (true, ⟨st1.used, setPy st1.P col e.2⟩)
      | .ok (false, _) => rpLoop2 M nn rec col st rest

/-- The body of `_repivot_used(col, M, used, P)`: build the candidate list, run the
first loop (`_check_unused` on each candidate's current column), then the second loop
(recursive re-pivoting through `rec`). -/
def repivotCore (M : Mat) (nn : Nat) (rec : Nat → PivSt → PRes (Bool × PivSt))
    (col : Nat) (st : PivSt) : PRes (Bool × PivSt) :=
  match repivotEntries M col st.P st.used with
  | .error e => .err e
  | .ok es =>
    match rpLoop1 M nn col st (es.insertionSort entryGE) with
    | .ok (false, _) => rpLoop2 M nn rec col st (es.insertionSort entryGE)
    | r => r

/-- Embeds `_repivot_used(col, M, used, P)` with a fuel bound on the recursion depth
(structural recursion on the fuel, so that concrete runs compute by reduction). -/
def repivotUsed (M : Mat) (nn : Nat) : Nat → Nat → PivSt → PRes (Bool × PivSt)
  | 0 => fun _ _ => .timeout
  | f + 1 => repivotCore M nn (repivotUsed M nn f)

/-- The column loop of `_pivot`: direct assignment, then re-pivoting, else raise
`ValueError("Col of 0's!")`. -/
def pivotLoop (M : Mat) (nn fuel : Nat) (st : PivSt) : List Nat → PRes PivSt
  | [] => .ok st
  | col :: rest =>
    match checkUnused M nn col st with
    | (true, st1) => pivotLoop M nn fuel st1 rest
    | (false, _) =>
      match repivotUsed M nn fuel col st with
      | .timeout => .timeout
      | .err m => .err m
      | .ok (true, st1) => pivotLoop M nn fuel st1 rest
      | .ok (false, _) => .err .colOfZeros

/-- The permutation list computed by `_pivot(M)` (before it is turned into a matrix
and a sign). -/
def pivotList (M : Mat) (nn fuel : Nat) : PRes (List Nat) :=
  match pivotLoop M nn fuel ⟨[], []⟩ (List.range nn) with
  | .timeout => .timeout
  | .err m => .err m
  | .ok st => .ok st.P

/-- Embeds `_matrix_P(P)`: entry `(r, i)` is `1` exactly when `i == P[r]`
(meaningful for `r < len(P)`; out-of-range rows are irrelevant to every use). -/
def matrixP (P : List Nat) : Mat :=
  fun r i => if P.getD r 0 = i then 1 else 0

/-- The numeric value of Python's `(-1) ** a` for an integer `a` (for negative `a`
Python returns the float `±1.0`; the value is `-1` exactly when `a` is odd). -/
def negOnePowZ (a : ℤ) : ℤ := if a % 2 = 0 then 1 else -1

/-- Embeds `_det_P(v)`: starts from `(-1) ** v[0]` (raising `IndexError` on an empty
list), then for each element of `v[1:-1]` multiplies by `(-1)` to the power of the
element minus the number of strictly smaller elements in the prefix `v[:i+1]`. -/
def detP (v : List Nat) : Option ℤ :=
  match v with
  | [] => none
  | v0 :: _ =>
    some ((v.tail.dropLast).enum.foldl
      (fun n x =>
        n * negOnePowZ ((x.2 : ℤ) -
          (((v.take (x.1 + 1)).filter (fun vj => decide (vj < x.2))).length : ℤ)))
      (negOnePowZ (v0 : ℤ)))

/-! ## Crout decomposition (`LU`), splitter (`_Lower`, `_Upper`) -/

/-- Prefix (first `m` iterations) of the upper inner loop of `LU` for column `j`. -/
def croutUAux (A : Mat) (j m : Nat) : Mat :=
  (List.range m).foldl
    (fun B i => setM B i j (B i j - ∑ k ∈ Finset.range i, B i k * B k j)) A

/-- Inner upper loop of `LU` for column `j`: for `i in range(j+1)`,
`M[i,j] = M[i,j] - sum(M[i,k]*M[k,j] for k in range(i))` (the `if i != 0` guard is the
empty sum). -/
def croutU (A : Mat) (j : Nat) : Mat := croutUAux A j (j + 1)

/-- Prefix (first `m` iterations) of the lower inner loop of `LU` for column `j`. -/
def croutLAux (B : Mat) (j m : Nat) : Mat :=
  (List.range' (j + 1) m).foldl
    (fun B i => setM B i j ((B i j - ∑ k ∈ Finset.range j, B i k * B k j) / B j j)) B

/-- Inner lower loop of `LU` for column `j`: for `i in range(j+1, nn)`,
`M[i,j] = (M[i,j] - sum(M[i,k]*M[k,j] for k in range(j))) / M[j,j]`. -/
def croutL (B : Mat) (nn j : Nat) : Mat := croutLAux B j (nn - (j + 1))

/-- Prefix (first `m` columns) of the outer Crout loop of `LU`. -/
def LUcombinedAux (A : Mat) (nn m : Nat) : Mat :=
  (List.range m).foldl (fun B j => croutL (croutU B j) nn j) A

/-- The in-place Crout loop of `LU`: for each column `j`, the upper loop then the
lower loop, leaving the combined L/U matrix. -/
def LUcombined (A : Mat) (nn : Nat) : Mat := LUcombinedAux A nn nn

/-- Embeds `_Lower`: unit diagonal, strictly-lower entries from the combined matrix. -/
def lowerOf (C : Mat) : Mat :=
  fun i j => if i = j then 1 else if i < j then 0 else C i j

/-- Embeds `_Upper`: zero strictly below the diagonal, combined entries elsewhere. -/
def upperOf (C : Mat) : Mat :=
  fun i j => if i > j then 0 else C i j

/-- Embeds `LU(M)`.  Returns the permutation as the list `P` (the source returns
`_matrix_P(P)`, recovered here as `matrixP P`), the sign `_det_P(P)` (whose `v[0]`
access raises `IndexError` on an empty matrix), and the split `L` and `U` computed by
the in-place Crout loop on `P*M`. -/
def LUfun (M : Mat) (nn fuel : Nat) : PRes (List Nat × ℤ × Mat × Mat) :=
  match pivotList M nn fuel with
  | .timeout => .timeout
  | .err m => .err m
  | .ok P =>
    match detP P with
    | none => .err .indexError
    | some d =>
      let C := LUcombined (matMul nn (matrixP P) M) nn
      .ok (P, d, lowerOf C, upperOf C)

/-! ## Forward/back substitution (`fb_sub`) and the solver wrapper (`simul_solve`) -/

/-- The list `y` built by the forward-substitution loop of `fb_sub`:
`y[0] = b[0]/L[0,0]`, and `y[i] = (b[i] - sum(L[i,j]*y[j] for j in range(i))) / L[i,i]`
(the first element is the same formula with an empty sum).  `forwardList k` is the
list after `k` elements have been appended. -/
def forwardList (L : Mat) (bp : Nat → ℚ) : Nat → List ℚ
  | 0 => []
  | k + 1 =>
    let ys := forwardList L bp k
    ys ++ [(bp k - ∑ j ∈ Finset.range k, L k j * ys.getD j 0) / L k k]

/-- The back-substitution loop of `fb_sub`, run from the last row down:
`backList k` is the list `[x_(nn-k), ..., x_(nn-1)]` of the last `k` solution entries,
each computed as `x[i] = (y[i] - sum(U[i,j]*x[j] for j in range(N, i, -1))) / U[i,i]`. -/
def backList (U : Mat) (y : Nat → ℚ) (nn : Nat) : Nat → List ℚ
  | 0 => []
  | k + 1 =>
    let xs := backList U y nn k
    let i := nn - (k + 1)
    ((y i - ∑ j ∈ Finset.Ico (i + 1) nn, U i j * xs.getD (j - (i + 1)) 0) / U i i) :: xs

/-- Embeds `fb_sub(L, U, P, b)`: permute `b` by the permutation matrix, forward
substitution for `y`, back substitution for `x` (the reshape of `b` to a column is the
identity in this model, and the float casts are identities on `ℚ`). -/
def fbSub (L U Pm : Mat) (b : Nat → ℚ) (nn : Nat) : Nat → ℚ :=
  fun i =>
    let bp := matVec nn Pm b
    let y : Nat → ℚ := fun r => (forwardList L bp nn).getD r 0
    (backList U y nn nn).getD i 0

/-- Embeds `simul_solve(M, b, P, n, L, U)`: if no cached decomposition is supplied
(`P is None`), decompose `M` first; otherwise use the supplied `(P, n, L, U)` without
calling `LU` (the result does not depend on the fuel or on `M`'s pivotability). -/
def simulSolve (M : Mat) (nn : Nat) (b : Nat → ℚ) (fuel : Nat)
    (cache : Option (List Nat × ℤ × Mat × Mat)) : PRes (Nat → ℚ) :=
  match cache with
  | some (P, _, L, U) => .ok (fbSub L U (matrixP P) b nn)
  | none =>
    match LUfun M nn fuel with
    | .timeout => .timeout
    | .err m => .err m
    | .ok (P, _, L, U) => .ok (fbSub L U (matrixP P) b nn)

/-! ## Heap model for the frame claim about `LU` (C9)

`LU` receives a reference to the caller's buffer; `M.astype('float')` and `.copy()`
allocate fresh buffers, `P * M` allocates the permuted product, and every in-place
write of the Crout loop targets that freshly allocated buffer.  The heap maps
references (allocation order) to buffers. -/

/-- A heap of numpy buffers: `mem r` is the buffer at reference `r`; references
`≥ next` are unallocated. -/
structure Heap where
  mem : Nat → Mat
  next : Nat

/-- Allocate a fresh buffer holding `A`; returns its reference. -/
def halloc (h : Heap) (A : Mat) : Nat × Heap :=
  (h.next, ⟨fun r => if r = h.next then A else h.mem r, h.next + 1⟩)

/-- In-place write of one entry of the buffer at reference `t`. -/
def hwrite (h : Heap) (t i j : Nat) (v : ℚ) : Heap :=
  ⟨fun r => if r = t then setM (h.mem t) i j v else h.mem r, h.next⟩

/-- The upper Crout loop performed as in-place writes on the buffer at `t`. -/
def croutUH (h : Heap) (t j : Nat) : Heap :=
  (List.range (j + 1)).foldl
    (fun h i => hwrite h t i j
      (h.mem t i j - ∑ k ∈ Finset.range i, h.mem t i k * h.mem t k j)) h

/-- The lower Crout loop performed as in-place writes on the buffer at `t`. -/
def croutLH (h : Heap) (t : Nat) (nn j : Nat) : Heap :=
  (List.range' (j + 1) (nn - (j + 1))).foldl
    (fun h i => hwrite h t i j
      ((h.mem t i j - ∑ k ∈ Finset.range j, h.mem t i k * h.mem t k j) / h.mem t j j)) h

/-- The whole in-place Crout loop of `LU` on the buffer at `t`. -/
def croutLoopH (h : Heap) (t nn : Nat) : Heap :=
  (List.range nn).foldl (fun h j => croutLH (croutUH h t j) t nn j) h

/-- Heap-level embedding of `LU(M)` where `M` lives at reference `r`:
`M.astype('float').copy()` allocates twice (the float cast is the identity on `ℚ`),
`_pivot` only reads, `P * M` allocates the product, the Crout loop writes in place on
that product, and `_Lower`/`_Upper` build fresh values.  The final heap is returned on
every path, including the error paths. -/
def LUheap (h : Heap) (r nn fuel : Nat) : PRes (List Nat × ℤ × Mat × Mat) × Heap :=
  let (r1, h1) := halloc h (h.mem r)
  let (r2, h2) := halloc h1 (h1.mem r1)
  match pivotList (h2.mem r2) nn fuel with
  | .timeout => (.timeout, h2)
  | .err m => (.err m, h2)
  | .ok P =>
    match detP P with
    | none => (.err .indexError, h2)
    | some d =>
      let (r3, h3) := halloc h2 (matMul nn (matrixP P) (h2.mem r2))
      let h4 := croutLoopH h3 r3 nn
      (.ok (P, d, lowerOf (h4.mem r3), upperOf (h4.mem r3)), h4)

/-! ## Invariants and concrete instances used by the claims -/

/-- Invariant of the pivot search state at every call boundary: no duplicate rows,
all rows in range, `P` and `used` hold the same rows, and every assigned column has a
nonzero pivot entry. -/
def FullInv (M : Mat) (nn : Nat) (st : PivSt) : Prop :=
  st.used.Nodup ∧ st.P.Nodup ∧ (∀ r ∈ st.used, r < nn) ∧
  (∀ r, r ∈ st.P ↔ r ∈ st.used) ∧
  (∀ i, i < st.P.length → M (st.P.getD i 0) i ≠ 0)

/-- State in the middle of a successful re-pivot: as `FullInv`, except that exactly one
used row `d` (the one evicted from the re-assigned position) is missing from `P`. -/
def PartInv (M : Mat) (nn : Nat) (st : PivSt) (d : Nat) : Prop :=
  st.used.Nodup ∧ st.P.Nodup ∧ (∀ r ∈ st.used, r < nn) ∧
  (∀ r ∈ st.P, r ∈ st.used) ∧ (∀ r ∈ st.used, r ∈ st.P ∨ r = d) ∧
  d ∈ st.used ∧ d ∉ st.P ∧
  (∀ i, i < st.P.length → M (st.P.getD i 0) i ≠ 0)

/-- The pivot search terminates (returns or raises) within some fuel bound. -/
def PivotTerminates (M : Mat) (nn : Nat) : Prop :=
  ∃ f, pivotList M nn f ≠ .timeout

/-- The re-pivoting search for one column terminates (returns or raises) within some
fuel bound, from a given search state. -/
def RepivotTerminates (M : Mat) (nn col : Nat) (st : PivSt) : Prop :=
  ∃ f, repivotUsed M nn f col st ≠ .timeout

/-- The pivot search raises a Python exception within some fuel bound. -/
def PivotRaises (M : Mat) (nn : Nat) : Prop :=
  ∃ f m, pivotList M nn f = .err m

/-- Builds a matrix from a list of rows (entries outside the lists are `0`). -/
def matOf (rows : List (List ℚ)) : Mat :=
  fun i j => (rows.getD i []).getD j 0

/-- A 3×3 invertible matrix on which the pivot search succeeds but the Crout loop
divides by a zero pivot (`U[1,1] = 0` after the chosen permutation). -/
def Abad : Mat := matOf [[1, 1, 0], [1, 1, 1], [0, 1, 1]]

/-- An explicit two-sided inverse of `Abad`. -/
def AbadInv : Mat := matOf [[0, 1, -1], [1, -1, 1], [-1, 1, 0]]

/-- A 3×3 matrix on which the re-pivoting search recurses forever: processing
column 2, the search bounces between the assignments of columns 0 and 1. -/
def Mloop : Mat := matOf [[5, 1, 1], [1, 1, 1], [0, 0, 0]]

/-- A 4×4 matrix with an all-zero column (column 3) on which the pivot search
diverges at column 2 before ever reaching the zero column. -/
def Mzc : Mat := matOf [[5, 1, 1, 0], [1, 1, 1, 0], [0, 0, 0, 0], [0, 0, 0, 0]]

/-- A 2×2 matrix with an all-zero column (column 1) on which the pivot search
terminates and raises the unpivotable-matrix error. -/
def Mzc2 : Mat := matOf [[1, 0], [1, 0]]

/-- The all-ones right-hand side of length 3. -/
def bOnes : Nat → ℚ := fun _ => 1

/-- The all-ones 2×2 matrix (every entry nonzero). -/
def Mones : Mat := fun _ _ => 1

/-- The spec's concrete scenario matrix `[[2,1,1],[4,3,3],[8,7,9]]`. -/
def Mspec : Mat := matOf [[2, 1, 1], [4, 3, 3], [8, 7, 9]]

/-- A one-buffer heap holding `Abad` at reference `0`, for the frame witness. -/
def heap0 : Heap := ⟨fun _ => Abad, 1⟩

/-- One factor of `_det_P`: `(-1)` to the element at position `p` minus the number of
strictly smaller elements strictly before it (`p = 0` gives the initial `(-1) ** v[0]`
factor). -/
def detPtermZ (v : List Nat) (p : Nat) : ℤ :=
  negOnePowZ ((v.getD p 0 : ℤ) -
    (((v.take p).filter (fun vj => decide (vj < v.getD p 0))).length : ℤ))

/-- The number of positions after `p` holding a value smaller than the one at `p`
(the Lehmer-code digit of the list at `p`). -/
def cntPost (v : List Nat) (nn p : Nat) : Nat :=
  ((Finset.Ico (p + 1) nn).filter (fun k => v.getD k 0 < v.getD p 0)).card

/-- The number of inversions of the length-`nn` list `v`. -/
def invNum (v : List Nat) (nn : Nat) : Nat := ∑ p ∈ Finset.range nn, cntPost v nn p

/-- The index pairs `(k, p)` with `p < k < nn`. -/
def pairsGT (nn : Nat) : Finset (Nat × Nat) :=
  (Finset.range nn ×ˢ Finset.range nn).filter (fun pr => pr.2 < pr.1)

/-- `_matrix_P(P)` as a square `Fin`-indexed matrix over `ℚ`. -/
def finMatrixP (P : List Nat) (nn : Nat) : Matrix (Fin nn) (Fin nn) ℚ :=
  Matrix.of fun r i => matrixP P r.val i.val

/-! ## Basic lemmas about `setPy` and `pyIndex` -/

theorem setPy_length_of_lt {P : List Nat} {col : Nat} (h : col < P.length) (r : Nat) :
    (setPy P col r).length = P.length := by
  simp [setPy, h]

theorem setPy_length_of_eq {P : List Nat} {col : Nat} (h : col = P.length) (r : Nat) :
    (setPy P col r).length = P.length + 1 := by
  simp [setPy, h]

theorem setPy_eq_set {P : List Nat} {col : Nat} (h : col < P.length) (r : Nat) :
    setPy P col r = P.set col r := by
  unfold setPy
  rw [if_pos h]

theorem setPy_eq_append {P : List Nat} {col : Nat} (h : ¬col < P.length) (r : Nat) :
    setPy P col r = P ++ [r] := by
  unfold setPy
  rw [if_neg h]

theorem mem_setPy {P : List Nat} {col r x : Nat} (h : x ∈ setPy P col r) :
    x ∈ P ∨ x = r := by
  unfold setPy at h
  split at h
  · exact List.mem_or_eq_of_mem_set h
  · rcases List.mem_append.mp h with h | h
    · exact Or.inl h
    · exact Or.inr (List.mem_singleton.mp h)

theorem self_mem_setPy {P : List Nat} {col : Nat} (h : col ≤ P.length) (r : Nat) :
    r ∈ setPy P col r := by
  unfold setPy
  split
  · rename_i hlt
    have hl : col < (P.set col r).length := by simpa using hlt
    have heq : (P.set col r)[col] = r := List.getElem_set_self hl
    have hm := List.getElem_mem hl
    rwa [heq] at hm
  · simp

theorem setPy_getD_self {P : List Nat} {col : Nat} (h : col ≤ P.length) (r : Nat) :
    (setPy P col r).getD col 0 = r := by
  unfold setPy
  split
  · rename_i hlt
    rw [List.getD_eq_getElem _ _ (by simpa using hlt)]
    exact List.getElem_set_self (by simpa using hlt)
  · rename_i hlt
    have hc : col = P.length := by omega
    subst hc
    rw [List.getD_eq_getElem _ _ (by simp)]
    simp

theorem setPy_getD_ne {P : List Nat} {col j : Nat} (hne : j ≠ col) (hj : j < P.length)
    (r : Nat) : (setPy P col r).getD j 0 = P.getD j 0 := by
  unfold setPy
  split
  · rw [List.getD_eq_getElem _ _ (by simpa using hj), List.getD_eq_getElem _ _ hj]
    exact List.getElem_set_ne (fun hc => hne hc.symm) _
  · rw [List.getD_append _ _ _ _ hj]

theorem nodup_setPy {P : List Nat} {col r : Nat} (hP : P.Nodup) (hr : r ∉ P) :
    (setPy P col r).Nodup := by
  unfold setPy
  split
  · exact hP.set hr
  · rw [List.nodup_append]
    exact ⟨hP, List.nodup_singleton r, by simpa using hr⟩

theorem mem_setPy_of_mem {P : List Nat} {col x : Nat} (hx : x ∈ P)
    (hne : x ≠ P.getD col 0) (r : Nat) : x ∈ setPy P col r := by
  unfold setPy
  split
  · rcases List.mem_iff_getElem.mp hx with ⟨i, hi, hget⟩
    have hic : i ≠ col := by
      intro h
      subst h
      exact hne (by rw [List.getD_eq_getElem _ _ hi, hget])
    have hib : i < (P.set col r).length := by simpa using hi
    have hgoal : (P.set col r)[i] = x := by
      rw [List.getElem_set_ne (fun h => hic h.symm)]
      exact hget
    rw [← hgoal]
    exact List.getElem_mem _
  · exact List.mem_append_left _ hx

theorem getD_not_mem_set {P : List Nat} {col : Nat} (hP : P.Nodup) (hcol : col < P.length)
    {r : Nat} (hr : r ≠ P.getD col 0) : P.getD col 0 ∉ P.set col r := by
  intro hmem
  rcases List.mem_iff_getElem.mp hmem with ⟨i, hi, hget⟩
  have hi' : i < P.length := by simpa using hi
  by_cases hic : i = col
  · subst hic
    rw [List.getElem_set_self hi] at hget
    exact hr hget
  · rw [List.getElem_set_ne (fun h => hic h.symm)] at hget
    have hcg : P.get ⟨i, hi'⟩ = P.get ⟨col, hcol⟩ := by
      rw [List.get_eq_getElem, List.get_eq_getElem]
      rw [← List.getD_eq_getElem P 0 hcol]
      exact hget
    have := List.nodup_iff_injective_get.mp hP hcg
    exact hic (by simpa using this)

theorem pyIndex_some_lt {a : Nat} : ∀ {P : List Nat} {i : Nat},
    pyIndex a P = some i → i < P.length := by
  intro P
  induction P with
  | nil => intro i h; simp [pyIndex] at h
  | cons b l ih =>
    intro i h
    unfold pyIndex at h
    split at h
    · obtain rfl : (0 : Nat) = i := by simpa using h
      simp
    · rcases Option.map_eq_some'.mp h with ⟨j, hj, rfl⟩
      have := ih hj
      simp only [List.length_cons]
      omega

theorem pyIndex_getD {a : Nat} : ∀ {P : List Nat} {i : Nat},
    pyIndex a P = some i → P.getD i 0 = a := by
  intro P
  induction P with
  | nil => intro i h; simp [pyIndex] at h
  | cons b l ih =>
    intro i h
    unfold pyIndex at h
    split at h
    · rename_i hba
      obtain rfl : (0 : Nat) = i := by simpa using h
      simpa using hba
    · rcases Option.map_eq_some'.mp h with ⟨j, hj, rfl⟩
      simpa using ih hj

theorem pyIndex_getD_ne {a col : Nat} {P : List Nat} {i : Nat}
    (h : pyIndex a P = some i) (hne : i ≠ col) (hcol : col < P.length)
    (hnd : P.Nodup) : P.getD col 0 ≠ a := by
  intro hget
  have hi := pyIndex_some_lt h
  have hia := pyIndex_getD h
  have hcg : P.get ⟨col, hcol⟩ = P.get ⟨i, hi⟩ := by
    rw [List.get_eq_getElem, List.get_eq_getElem,
      ← List.getD_eq_getElem P 0 hcol, ← List.getD_eq_getElem P 0 hi, hget, hia]
  have h2 := List.nodup_iff_injective_get.mp hnd hcg
  have h3 : col = i := by simpa using h2
  exact hne h3.symm

theorem pyIndex_isSome_of_mem {a : Nat} : ∀ {P : List Nat}, a ∈ P →
    ∃ i, pyIndex a P = some i := by
  intro P
  induction P with
  | nil => intro h; simp at h
  | cons b l ih =>
    intro h
    unfold pyIndex
    split
    · exact ⟨0, rfl⟩
    · rename_i hb
      have hal : a ∈ l := by
        rcases List.mem_cons.mp h with h | h
        · exact absurd h.symm hb
        · exact h
      rcases ih hal with ⟨i, hi⟩
      exact ⟨i + 1, by rw [hi]; rfl⟩

/-! ## The sorted head is the lexicographic maximum -/

theorem sortDesc_head_max {es : List (ℚ × Nat)} (h : es ≠ []) :
    ∃ e rest, es.insertionSort entryGE = e :: rest ∧ e ∈ es ∧
      ∀ x ∈ es, entryGE e x := by
  have hperm := List.perm_insertionSort entryGE es
  have hsorted := List.sorted_insertionSort entryGE es
  match hs : es.insertionSort entryGE with
  | [] =>
    rw [hs] at hperm
    exact absurd (List.Perm.nil_eq hperm).symm h
  | e :: rest =>
    rw [hs] at hperm hsorted
    refine ⟨e, rest, rfl, hperm.mem_iff.mp (List.mem_cons_self _ _), ?_⟩
    intro x hx
    rcases List.mem_cons.mp (hperm.mem_iff.mpr hx) with h | h
    · subst h
      rcases (@IsTotal.total _ entryGE _ x x) with h | h <;> exact h
    · exact (List.sorted_cons.mp hsorted).1 x h

/-! ## Specification of `checkUnused` -/

theorem mem_unusedEntries {M : Mat} {nn col : Nat} {st : PivSt} {e : ℚ × Nat} :
    e ∈ unusedEntries M nn col st ↔
      e.2 < nn ∧ e.2 ∉ st.used ∧ M e.2 col ≠ 0 ∧ e.1 = M e.2 col := by
  unfold unusedEntries
  constructor
  · intro h
    rcases List.mem_map.mp h with ⟨r, hrf, hre⟩
    have hr := List.mem_filter.mp hrf
    have h1 : r < nn := List.mem_range.mp hr.1
    have h2 := hr.2
    simp only [Bool.and_eq_true, decide_eq_true_eq] at h2
    subst hre
    exact ⟨h1, h2.1, h2.2, rfl⟩
  · rintro ⟨h1, h2, h3, h4⟩
    refine List.mem_map.mpr ⟨e.2, List.mem_filter.mpr ⟨List.mem_range.mpr h1, ?_⟩, ?_⟩
    · simp [h2, h3]
    · rw [← h4]

theorem checkUnused_false_state {M : Mat} {nn col : Nat} {st : PivSt} {st' : PivSt}
    (h : checkUnused M nn col st = (false, st')) : st' = st := by
  unfold checkUnused at h
  split at h
  · exact ((Prod.mk.injEq _ _ _ _).mp h).2.symm
  · split at h
    · exact ((Prod.mk.injEq _ _ _ _).mp h).2.symm
    · simp at h

theorem checkUnused_false_char {M : Mat} {nn col : Nat} {st : PivSt} {st' : PivSt}
    (h : checkUnused M nn col st = (false, st')) :
    ∀ r < nn, r ∉ st.used → M r col = 0 := by
  intro r hr hru
  by_contra hM
  have hmem : (M r col, r) ∈ unusedEntries M nn col st :=
    mem_unusedEntries.mpr ⟨hr, hru, hM, rfl⟩
  have hne : unusedEntries M nn col st ≠ [] := by
    intro hnil
    rw [hnil] at hmem
    simp at hmem
  rcases sortDesc_head_max hne with ⟨e, rest, hs, _, _⟩
  unfold checkUnused at h
  split at h
  · rename_i hemp
    rw [List.isEmpty_iff] at hemp
    exact hne hemp
  · rw [hs] at h
    simp at h

theorem checkUnused_true_spec {M : Mat} {nn col : Nat} {st st' : PivSt}
    (h : checkUnused M nn col st = (true, st')) :
    ∃ r, r < nn ∧ r ∉ st.used ∧ M r col ≠ 0 ∧
      st' = ⟨st.used ++ [r], setPy st.P col r⟩ ∧
      ∀ x < nn, x ∉ st.used → M x col ≠ 0 → entryGE (M r col, r) (M x col, x) := by
  unfold checkUnused at h
  split at h
  · simp at h
  · rename_i hemp
    have hne : unusedEntries M nn col st ≠ [] := by
      simpa [List.isEmpty_iff] using hemp
    rcases sortDesc_head_max hne with ⟨e, rest, hs, hmem, hmax⟩
    rw [hs] at h
    have he := mem_unusedEntries.mp hmem
    refine ⟨e.2, he.1, he.2.1, he.2.2.1, ?_, ?_⟩
    · exact ((Prod.mk.injEq _ _ _ _).mp h).2.symm
    · intro x hx hxu hxM
      have hxmem : (M x col, x) ∈ unusedEntries M nn col st :=
        mem_unusedEntries.mpr ⟨hx, hxu, hxM, rfl⟩
      have hge := hmax _ hxmem
      have he1 : e.1 = M e.2 col := he.2.2.2
      rw [← he1]
      exact hge

/-! ## Characterizations of the `_repivot_used` entries and loops -/

theorem repivotEntries_ok_of_sub {M : Mat} {col : Nat} {P : List Nat} :
    ∀ {used : List Nat}, (∀ r ∈ used, r ∈ P) →
      ∃ es, repivotEntries M col P used = .ok es := by
  intro used
  induction used with
  | nil => intro _; exact ⟨[], rfl⟩
  | cons r rest ih =>
    intro hsub
    rcases ih (fun x hx => hsub x (List.mem_cons_of_mem _ hx)) with ⟨es, hes⟩
    rcases pyIndex_isSome_of_mem (hsub r (List.mem_cons_self _ _)) with ⟨i, hi⟩
    by_cases hM : M r col ≠ 0
    · by_cases hic : i ≠ col
      · exact ⟨(M r col, r) :: es,
          by simp only [repivotEntries, if_pos hM, hi, if_pos hic, hes, Except.map]⟩
      · exact ⟨es, by simp only [repivotEntries, if_pos hM, hi, if_neg hic, hes]⟩
    · exact ⟨es, by simp only [repivotEntries, if_neg hM, hes]⟩

theorem mem_repivotEntries {M : Mat} {col : Nat} {P : List Nat} {e : ℚ × Nat} :
    ∀ {used : List Nat} {es : List (ℚ × Nat)},
      repivotEntries M col P used = .ok es →
      (e ∈ es ↔ e.2 ∈ used ∧ M e.2 col ≠ 0 ∧
        (∃ i, pyIndex e.2 P = some i ∧ i ≠ col) ∧ e.1 = M e.2 col) := by
  intro used
  induction used with
  | nil =>
    intro es h
    obtain rfl : es = [] := (Except.ok.inj h).symm
    simp
  | cons r rest ih =>
    intro es h
    by_cases hM : M r col ≠ 0
    · rcases hpy : pyIndex r P with _ | i
      · simp only [repivotEntries, if_pos hM, hpy] at h
        exact absurd h (by simp)
      · by_cases hic : i ≠ col
        · simp only [repivotEntries, if_pos hM, hpy, if_pos hic] at h
          rcases hrest : repivotEntries M col P rest with m | es0
          · rw [hrest] at h
            simp [Except.map] at h
          · rw [hrest] at h
            simp only [Except.map] at h
            obtain rfl : es = (M r col, r) :: es0 := (Except.ok.inj h).symm
            constructor
            · intro hmem
              rcases List.mem_cons.mp hmem with hmem | hmem
              · subst hmem
                exact ⟨List.mem_cons_self _ _, hM, ⟨i, hpy, hic⟩, rfl⟩
              · have hr := (ih hrest).mp hmem
                exact ⟨List.mem_cons_of_mem _ hr.1, hr.2⟩
            · rintro ⟨hmem, h2, h3, h4⟩
              rcases List.mem_cons.mp hmem with hmem | hmem
              · have he : e = (M r col, r) := Prod.ext_iff.mpr ⟨by rw [h4, hmem], hmem⟩
                rw [he]
                exact List.mem_cons_self _ _
              · exact List.mem_cons_of_mem _ ((ih hrest).mpr ⟨hmem, h2, h3, h4⟩)
        · simp only [repivotEntries, if_pos hM, hpy, if_neg hic] at h
          rw [ih h]
          constructor
          · rintro ⟨h1, h2, h3, h4⟩
            exact ⟨List.mem_cons_of_mem _ h1, h2, h3, h4⟩
          · rintro ⟨h1, h2, h3, h4⟩
            rcases List.mem_cons.mp h1 with h1 | h1
            · exfalso
              rcases h3 with ⟨i2, hi2, hic2⟩
              rw [h1, hpy] at hi2
              have hii : i = i2 := by simpa using hi2
              subst hii
              have : i = col := by simpa using hic
              exact hic2 this
            · exact ⟨h1, h2, h3, h4⟩
    · simp only [repivotEntries, if_neg hM] at h
      rw [ih h]
      constructor
      · rintro ⟨h1, h2, h3, h4⟩
        exact ⟨List.mem_cons_of_mem _ h1, h2, h3, h4⟩
      · rintro ⟨h1, h2, h3, h4⟩
        rcases List.mem_cons.mp h1 with h1 | h1
        · exact absurd (h1 ▸ h2) (by simpa using hM)
        · exact ⟨h1, h2, h3, h4⟩

theorem rpLoop1_false {M : Mat} {nn col : Nat} {st st' : PivSt} :
    ∀ {es : List (ℚ × Nat)}, rpLoop1 M nn col st es = .ok (false, st') →
      st' = st ∧ ∀ e ∈ es, ∃ uc, pyIndex e.2 st.P = some uc ∧
        ∀ st1, checkUnused M nn uc st ≠ (true, st1) := by
  intro es
  induction es with
  | nil =>
    intro h
    simp only [rpLoop1] at h
    have h2 := (Prod.ext_iff.mp (PRes.ok.inj h)).2
    exact ⟨h2.symm, by simp⟩
  | cons e rest ih =>
    intro h
    rcases hpy : pyIndex e.2 st.P with _ | uc
    · simp only [rpLoop1, hpy] at h
      exact absurd h (by simp)
    · match hcu : checkUnused M nn uc st with
      | (true, st1) =>
        simp only [rpLoop1, hpy, hcu] at h
        exact absurd h (by simp)
      | (false, st1) =>
        simp only [rpLoop1, hpy, hcu] at h
        rcases ih h with ⟨h1, h2⟩
        refine ⟨h1, ?_⟩
        intro x hx
        rcases List.mem_cons.mp hx with hx | hx
        · subst hx
          exact ⟨uc, hpy, fun st2 hst2 => by rw [hcu] at hst2; simp at hst2⟩
        · exact h2 x hx

theorem rpLoop1_true {M : Mat} {nn col : Nat} {st st' : PivSt} :
    ∀ {es : List (ℚ × Nat)}, rpLoop1 M nn col st es = .ok (true, st') →
      ∃ e ∈ es, ∃ uc st1, pyIndex e.2 st.P = some uc ∧
        checkUnused M nn uc st = (true, st1) ∧
        st' = ⟨st1.used, setPy st1.P col e.2⟩ := by
  intro es
  induction es with
  | nil =>
    intro h
    simp only [rpLoop1] at h
    exact absurd (Prod.ext_iff.mp (PRes.ok.inj h)).1 (by simp)
  | cons e rest ih =>
    intro h
    rcases hpy : pyIndex e.2 st.P with _ | uc
    · simp only [rpLoop1, hpy] at h
      exact absurd h (by simp)
    · match hcu : checkUnused M nn uc st with
      | (true, st1) =>
        simp only [rpLoop1, hpy, hcu] at h
        have hst := (Prod.ext_iff.mp (PRes.ok.inj h)).2.symm
        exact ⟨e, List.mem_cons_self _ _, uc, st1, hpy, hcu, hst⟩
      | (false, st1) =>
        simp only [rpLoop1, hpy, hcu] at h
        rcases ih h with ⟨x, hx, uc2, st2, h1, h2, h3⟩
        exact ⟨x, List.mem_cons_of_mem _ hx, uc2, st2, h1, h2, h3⟩

theorem rpLoop2_false {M : Mat} {nn col : Nat}
    {rec : Nat → PivSt → PRes (Bool × PivSt)} {st st' : PivSt} :
    ∀ {es : List (ℚ × Nat)}, rpLoop2 M nn rec col st es = .ok (false, st') →
      st' = st := by
  intro es
  induction es with
  | nil =>
    intro h
    simp only [rpLoop2] at h
    exact (Prod.ext_iff.mp (PRes.ok.inj h)).2.symm
  | cons e rest ih =>
    intro h
    rcases hpy : pyIndex e.2 st.P with _ | uc
    · simp only [rpLoop2, hpy] at h
      exact absurd h (by simp)
    · match hru : rec uc st with
      | .timeout =>
        simp only [rpLoop2, hpy, hru] at h
        exact absurd h (by simp)
      | .err m =>
        simp only [rpLoop2, hpy, hru] at h
        exact absurd h (by simp)
      | .ok (true, st1) =>
        simp only [rpLoop2, hpy, hru] at h
        exact absurd h (by simp)
      | .ok (false, st1) =>
        simp only [rpLoop2, hpy, hru] at h
        exact ih h

theorem rpLoop2_true {M : Mat} {nn col : Nat}
    {rec : Nat → PivSt → PRes (Bool × PivSt)} {st st' : PivSt} :
    ∀ {es : List (ℚ × Nat)}, rpLoop2 M nn rec col st es = .ok (true, st') →
      ∃ e ∈ es, ∃ uc st1, pyIndex e.2 st.P = some uc ∧
        rec uc st = .ok (true, st1) ∧
        st' = ⟨st1.used, setPy st1.P col e.2⟩ := by
  intro es
  induction es with
  | nil =>
    intro h
    simp only [rpLoop2] at h
    exact absurd (Prod.ext_iff.mp (PRes.ok.inj h)).1 (by simp)
  | cons e rest ih =>
    intro h
    rcases hpy : pyIndex e.2 st.P with _ | uc
    · simp only [rpLoop2, hpy] at h
      exact absurd h (by simp)
    · match hru : rec uc st with
      | .timeout =>
        simp only [rpLoop2, hpy, hru] at h
        exact absurd h (by simp)
      | .err m =>
        simp only [rpLoop2, hpy, hru] at h
        exact absurd h (by simp)
      | .ok (true, st1) =>
        simp only [rpLoop2, hpy, hru] at h
        have hst := (Prod.ext_iff.mp (PRes.ok.inj h)).2.symm
        exact ⟨e, List.mem_cons_self _ _, uc, st1, hpy, hru, hst⟩
      | .ok (false, st1) =>
        simp only [rpLoop2, hpy, hru] at h
        rcases ih h with ⟨x, hx, uc2, st2, h1, h2, h3⟩
        exact ⟨x, List.mem_cons_of_mem _ hx, uc2, st2, h1, h2, h3⟩

theorem repivotUsed_false_state {M : Mat} {nn f col : Nat} {st st' : PivSt}
    (h : repivotUsed M nn f col st = .ok (false, st')) : st' = st := by
  match f with
  | 0 =>
    simp only [repivotUsed] at h
    exact absurd h (by simp)
  | f + 1 =>
    rcases hre : repivotEntries M col st.P st.used with m | es
    · simp only [repivotUsed, repivotCore, hre] at h
      exact absurd h (by simp)
    · match hl1 : rpLoop1 M nn col st (es.insertionSort entryGE) with
      | .ok (false, st1) =>
        simp only [repivotUsed, repivotCore, hre, hl1] at h
        exact rpLoop2_false h
      | .ok (true, st1) =>
        simp only [repivotUsed, repivotCore, hre, hl1] at h
        exact absurd h (by simp)
      | .timeout =>
        simp only [repivotUsed, repivotCore, hre, hl1] at h
        exact absurd h (by simp)
      | .err m =>
        simp only [repivotUsed, repivotCore, hre, hl1] at h
        exact absurd h (by simp)

/-! ## Fuel monotonicity: a non-timeout result is stable under more fuel -/

theorem repivotUsed_zero {M : Mat} {nn col : Nat} {st : PivSt} :
    repivotUsed M nn 0 col st = .timeout := rfl

theorem rpLoop2_mono {M : Mat} {nn : Nat}
    {rec rec2 : Nat → PivSt → PRes (Bool × PivSt)}
    (hrec : ∀ uc st r, rec uc st = r → r ≠ .timeout → rec2 uc st = r) :
    ∀ {col : Nat} {st : PivSt} {es : List (ℚ × Nat)} {r : PRes (Bool × PivSt)},
      rpLoop2 M nn rec col st es = r → r ≠ .timeout →
      rpLoop2 M nn rec2 col st es = r := by
  intro col st es
  induction es with
  | nil =>
    intro r h hne
    simp only [rpLoop2] at h ⊢
    exact h
  | cons e rest ih =>
    intro r h hne
    rcases hpy : pyIndex e.2 st.P with _ | uc
    · simp only [rpLoop2, hpy] at h ⊢
      exact h
    · match hru : rec uc st with
      | .timeout =>
        simp only [rpLoop2, hpy, hru] at h
        exact absurd h.symm hne
      | .err m =>
        have hru2 := hrec uc st _ hru (by simp)
        simp only [rpLoop2, hpy, hru] at h
        simp only [rpLoop2, hpy, hru2]
        exact h
      | .ok (true, st1) =>
        have hru2 := hrec uc st _ hru (by simp)
        simp only [rpLoop2, hpy, hru] at h
        simp only [rpLoop2, hpy, hru2]
        exact h
      | .ok (false, st1) =>
        have hru2 := hrec uc st _ hru (by simp)
        simp only [rpLoop2, hpy, hru] at h
        simp only [rpLoop2, hpy, hru2]
        exact ih h hne

theorem repivotCore_mono {M : Mat} {nn : Nat}
    {rec rec2 : Nat → PivSt → PRes (Bool × PivSt)}
    (hrec : ∀ uc st r, rec uc st = r → r ≠ .timeout → rec2 uc st = r)
    {col : Nat} {st : PivSt} {r : PRes (Bool × PivSt)}
    (h : repivotCore M nn rec col st = r) (hne : r ≠ .timeout) :
    repivotCore M nn rec2 col st = r := by
  rcases hre : repivotEntries M col st.P st.used with m | es
  · simp only [repivotCore, hre] at h ⊢
    exact h
  · match hl1 : rpLoop1 M nn col st (es.insertionSort entryGE) with
    | .ok (false, st1) =>
      simp only [repivotCore, hre, hl1] at h ⊢
      exact rpLoop2_mono hrec h hne
    | .ok (true, st1) =>
      simp only [repivotCore, hre, hl1] at h ⊢
      exact h
    | .timeout =>
      simp only [repivotCore, hre, hl1] at h ⊢
      exact h
    | .err m =>
      simp only [repivotCore, hre, hl1] at h ⊢
      exact h

theorem repivotUsed_mono_succ {M : Mat} {nn : Nat} :
    ∀ f col st r, repivotUsed M nn f col st = r → r ≠ .timeout →
      repivotUsed M nn (f + 1) col st = r := by
  intro f
  induction f with
  | zero =>
    intro col st r h hne
    rw [repivotUsed_zero] at h
    exact absurd h.symm hne
  | succ f ih =>
    intro col st r h hne
    exact repivotCore_mono (fun uc st2 r2 h2 hne2 => ih uc st2 r2 h2 hne2) h hne

theorem repivotUsed_mono_le {M : Mat} {nn : Nat} {f f2 : Nat} (hle : f ≤ f2)
    {col : Nat} {st : PivSt} {r : PRes (Bool × PivSt)}
    (h : repivotUsed M nn f col st = r) (hne : r ≠ .timeout) :
    repivotUsed M nn f2 col st = r := by
  induction f2, hle using Nat.le_induction with
  | base => exact h
  | succ n hn ihn => exact repivotUsed_mono_succ n col st r ihn hne

/-! ## Shape and frame lemmas for the re-pivoting search -/

theorem setPy_length (P : List Nat) (col r : Nat) :
    (setPy P col r).length = if col < P.length then P.length else P.length + 1 := by
  unfold setPy
  split <;> simp

theorem repivotUsed_true_length {M : Mat} {nn : Nat} :
    ∀ {f col : Nat} {st st' : PivSt}, repivotUsed M nn f col st = .ok (true, st') →
      st'.P.length = if col < st.P.length then st.P.length else st.P.length + 1 := by
  intro f
  induction f with
  | zero =>
    intro col st st' h
    rw [repivotUsed_zero] at h
    exact absurd h (by simp)
  | succ f ihf =>
    intro col st st' h
    rcases hre : repivotEntries M col st.P st.used with m | es
    · simp only [repivotUsed, repivotCore, hre] at h
      exact absurd h (by simp)
    · match hl1 : rpLoop1 M nn col st (es.insertionSort entryGE) with
      | .timeout =>
        simp only [repivotUsed, repivotCore, hre, hl1] at h
        exact absurd h (by simp)
      | .err m =>
        simp only [repivotUsed, repivotCore, hre, hl1] at h
        exact absurd h (by simp)
      | .ok (true, st1) =>
        simp only [repivotUsed, repivotCore, hre, hl1] at h
        obtain rfl : st1 = st' := (Prod.ext_iff.mp (PRes.ok.inj h)).2
        rcases rpLoop1_true hl1 with ⟨e, _, uc, st2, hpy, hcu, hst⟩
        rcases checkUnused_true_spec hcu with ⟨r, _, _, _, hst2, _⟩
        have huc : uc < st.P.length := pyIndex_some_lt hpy
        rw [hst, hst2]
        simp only
        rw [setPy_length, setPy_length_of_lt huc]
      | .ok (false, st1) =>
        simp only [repivotUsed, repivotCore, hre, hl1] at h
        rcases rpLoop2_true h with ⟨e, _, uc, st2, hpy, hru, hst⟩
        have huc : uc < st.P.length := pyIndex_some_lt hpy
        have hlen2 : st2.P.length = st.P.length := by
          rw [ihf hru, if_pos huc]
        rw [hst]
        simp only
        rw [setPy_length, hlen2]

theorem repivotUsed_frame {M : Mat} {nn : Nat} :
    ∀ {f col : Nat} {st st' : PivSt}, repivotUsed M nn f col st = .ok (true, st') →
      ∀ q, q < st.P.length → q ≠ col → st'.P.getD q 0 ≠ st.P.getD q 0 →
        (∃ st1, checkUnused M nn q st = (true, st1)) ∨
        (∃ f' st2, f' < f ∧ repivotUsed M nn f' q st = .ok (true, st2)) := by
  intro f
  induction f with
  | zero =>
    intro col st st' h
    rw [repivotUsed_zero] at h
    exact absurd h (by simp)
  | succ f ihf =>
    intro col st st' h q hq hqc hchanged
    rcases hre : repivotEntries M col st.P st.used with m | es
    · simp only [repivotUsed, repivotCore, hre] at h
      exact absurd h (by simp)
    · match hl1 : rpLoop1 M nn col st (es.insertionSort entryGE) with
      | .timeout =>
        simp only [repivotUsed, repivotCore, hre, hl1] at h
        exact absurd h (by simp)
      | .err m =>
        simp only [repivotUsed, repivotCore, hre, hl1] at h
        exact absurd h (by simp)
      | .ok (true, st1) =>
        simp only [repivotUsed, repivotCore, hre, hl1] at h
        obtain rfl : st1 = st' := (Prod.ext_iff.mp (PRes.ok.inj h)).2
        rcases rpLoop1_true hl1 with ⟨e, _, uc, st2, hpy, hcu, hst⟩
        rcases checkUnused_true_spec hcu with ⟨r, _, _, _, hst2, _⟩
        have huc : uc < st.P.length := pyIndex_some_lt hpy
        by_cases hquc : q = uc
        · exact Or.inl ⟨st2, hquc ▸ hcu⟩
        · exfalso
          apply hchanged
          rw [hst]
          simp only
          have hq2 : q < st2.P.length := by
            rw [hst2]
            simpa [setPy_length_of_lt huc] using hq
          rw [setPy_getD_ne hqc hq2]
          rw [hst2]
          simp only
          rw [setPy_getD_ne hquc hq]
      | .ok (false, st1) =>
        simp only [repivotUsed, repivotCore, hre, hl1] at h
        rcases rpLoop2_true h with ⟨e, _, uc, st2, hpy, hru, hst⟩
        have huc : uc < st.P.length := pyIndex_some_lt hpy
        have hlen2 : st2.P.length = st.P.length := by
          rw [repivotUsed_true_length hru, if_pos huc]
        by_cases hquc : q = uc
        · exact Or.inr ⟨f, st2, Nat.lt_succ_self f, hquc ▸ hru⟩
        · have hgd : st'.P.getD q 0 = st2.P.getD q 0 := by
            rw [hst]
            simp only
            rw [setPy_getD_ne hqc (by rw [hlen2]; exact hq)]
          by_cases hch2 : st2.P.getD q 0 = st.P.getD q 0
          · exact absurd (hgd.trans hch2) hchanged
          · rcases ihf hru q hq hquc hch2 with hl | ⟨f2, st3, hf2, hr3⟩
            · exact Or.inl hl
            · exact Or.inr ⟨f2, st3, Nat.lt_succ_of_lt hf2, hr3⟩

/-! ## The search invariant -/

theorem nodup_snoc {l : List Nat} {a : Nat} (hl : l.Nodup) (ha : a ∉ l) :
    (l ++ [a]).Nodup := by
  rw [List.nodup_append]
  exact ⟨hl, List.nodup_singleton a, by simpa using ha⟩

theorem getD_mem {P : List Nat} {col : Nat} (h : col < P.length) : P.getD col 0 ∈ P := by
  rw [List.getD_eq_getElem _ _ h]
  exact List.getElem_mem h

/-- A successful `_check_unused` on a fresh column (`col = len(P)`) preserves the full
invariant and appends one row. -/
theorem checkUnused_true_inv_eq {M : Mat} {nn col : Nat} {st st2 : PivSt}
    (hInv : FullInv M nn st) (h : checkUnused M nn col st = (true, st2))
    (hcol : col = st.P.length) : FullInv M nn st2 := by
  obtain ⟨hU, hP, hlt, hiff, hpiv⟩ := hInv
  rcases checkUnused_true_spec h with ⟨r, hr1, hr2, hr3, hst2, _⟩
  have hrP : r ∉ st.P := fun hmem => hr2 ((hiff r).mp hmem)
  have happ : setPy st.P col r = st.P ++ [r] := by
    unfold setPy
    rw [if_neg (by omega)]
  subst hst2
  refine ⟨nodup_snoc hU hr2, ?_, ?_, ?_, ?_⟩
  · simp only [happ]
    exact nodup_snoc hP hrP
  · intro x hx
    rcases List.mem_append.mp hx with hx | hx
    · exact hlt x hx
    · rw [List.mem_singleton.mp hx]; exact hr1
  · intro x
    simp only [happ, List.mem_append, List.mem_singleton]
    constructor
    · rintro (hx | hx)
      · exact Or.inl ((hiff x).mp hx)
      · exact Or.inr hx
    · rintro (hx | hx)
      · exact Or.inl ((hiff x).mpr hx)
      · exact Or.inr hx
  · intro i hi
    simp only [happ] at hi ⊢
    rw [List.length_append, List.length_singleton] at hi
    by_cases hic : i < st.P.length
    · rw [List.getD_append _ _ _ _ hic]
      exact hpiv i hic
    · have hie : i = st.P.length := by omega
      subst hie
      have hgr : (st.P ++ [r]).getD st.P.length 0 = r := by
        rw [List.getD_append_right _ _ _ _ (le_refl _)]
        simp
      rw [hgr, ← hcol]
      exact hr3

/-- A successful `_check_unused` on an already-assigned column (`uc < len(P)`) yields
the partial invariant with the evicted row `P[uc]` dangling. -/
theorem checkUnused_true_inv_lt {M : Mat} {nn uc : Nat} {st st2 : PivSt}
    (hInv : FullInv M nn st) (h : checkUnused M nn uc st = (true, st2))
    (huc : uc < st.P.length) : PartInv M nn st2 (st.P.getD uc 0) := by
  obtain ⟨hU, hP, hlt, hiff, hpiv⟩ := hInv
  rcases checkUnused_true_spec h with ⟨r, hr1, hr2, hr3, hst2, _⟩
  have hrP : r ∉ st.P := fun hmem => hr2 ((hiff r).mp hmem)
  have hd : st.P.getD uc 0 ∈ st.P := getD_mem huc
  have hrd : r ≠ st.P.getD uc 0 := fun he => hrP (he ▸ hd)
  have hset : setPy st.P uc r = st.P.set uc r := by
    unfold setPy
    rw [if_pos huc]
  subst hst2
  refine ⟨nodup_snoc hU hr2, ?_, ?_, ?_, ?_, ?_, ?_, ?_⟩
  · simp only [hset]
    exact hP.set hrP
  · intro x hx
    rcases List.mem_append.mp hx with hx | hx
    · exact hlt x hx
    · rw [List.mem_singleton.mp hx]; exact hr1
  · intro x hx
    simp only [hset] at hx
    rcases List.mem_or_eq_of_mem_set hx with hx | hx
    · exact List.mem_append_left _ ((hiff x).mp hx)
    · subst hx; simp
  · intro x hx
    rcases List.mem_append.mp hx with hx | hx
    · by_cases hxd : x = st.P.getD uc 0
      · exact Or.inr hxd
      · exact Or.inl (mem_setPy_of_mem ((hiff x).mpr hx) hxd r)
    · left
      rw [List.mem_singleton.mp hx]
      exact self_mem_setPy (le_of_lt huc) r
  · exact List.mem_append_left _ ((hiff _).mp hd)
  · simp only [hset]
    exact getD_not_mem_set hP huc hrd
  · intro i hi
    simp only [hset] at hi ⊢
    rw [List.length_set] at hi
    by_cases hic : i = uc
    · subst hic
      have : (st.P.set i r).getD i 0 = r := by
        rw [List.getD_eq_getElem _ _ (by simpa using hi)]
        exact List.getElem_set_self (by simpa using hi)
      rw [this]
      exact hr3
    · rw [List.getD_eq_getElem _ _ (by simpa using hi),
        List.getElem_set_ne (fun hc => hic hc.symm), ← List.getD_eq_getElem st.P 0 hi]
      exact hpiv i hi

/-- Writing the dangling row `e2` back at a fresh column restores the full invariant. -/
theorem writeBack_inv_eq {M : Mat} {nn col : Nat} {st1 : PivSt} {e2 : Nat}
    (hPI : PartInv M nn st1 e2) (hM : M e2 col ≠ 0) (hcol : col = st1.P.length) :
    FullInv M nn ⟨st1.used, setPy st1.P col e2⟩ := by
  obtain ⟨hU, hP, hlt, hsub, hsup, hdu, hdP, hpiv⟩ := hPI
  have happ : setPy st1.P col e2 = st1.P ++ [e2] := setPy_eq_append (by omega) e2
  refine ⟨hU, ?_, hlt, ?_, ?_⟩
  · simp only [happ]
    exact nodup_snoc hP hdP
  · intro x
    simp only [happ, List.mem_append, List.mem_singleton]
    constructor
    · rintro (hx | hx)
      · exact hsub x hx
      · exact hx ▸ hdu
    · intro hx
      rcases hsup x hx with hx2 | hx2
      · exact Or.inl hx2
      · exact Or.inr hx2
  · intro i hi
    simp only [happ] at hi ⊢
    rw [List.length_append, List.length_singleton] at hi
    by_cases hic : i < st1.P.length
    · rw [List.getD_append _ _ _ _ hic]
      exact hpiv i hic
    · have hie : i = st1.P.length := by omega
      subst hie
      have hgr : (st1.P ++ [e2]).getD st1.P.length 0 = e2 := by
        rw [List.getD_append_right _ _ _ _ (le_refl _)]
        simp
      rw [hgr, ← hcol]
      exact hM

/-- Writing the dangling row `e2` back at an already-assigned column keeps the partial
invariant, with the previously assigned row of that column now dangling. -/
theorem writeBack_inv_lt {M : Mat} {nn col : Nat} {st1 : PivSt} {e2 : Nat}
    (hPI : PartInv M nn st1 e2) (hM : M e2 col ≠ 0) (hcol : col < st1.P.length) :
    PartInv M nn ⟨st1.used, setPy st1.P col e2⟩ (st1.P.getD col 0) := by
  obtain ⟨hU, hP, hlt, hsub, hsup, hdu, hdP, hpiv⟩ := hPI
  have hset : setPy st1.P col e2 = st1.P.set col e2 := setPy_eq_set hcol e2
  have hdmem : st1.P.getD col 0 ∈ st1.P := getD_mem hcol
  have hed : e2 ≠ st1.P.getD col 0 := fun he => hdP (he ▸ hdmem)
  refine ⟨hU, ?_, hlt, ?_, ?_, ?_, ?_, ?_⟩
  · simp only [hset]
    exact hP.set hdP
  · intro x hx
    simp only [hset] at hx
    rcases List.mem_or_eq_of_mem_set hx with hx | hx
    · exact hsub x hx
    · exact hx ▸ hdu
  · intro x hx
    rcases hsup x hx with hx2 | hx2
    · by_cases hxd : x = st1.P.getD col 0
      · exact Or.inr hxd
      · exact Or.inl (mem_setPy_of_mem hx2 hxd e2)
    · left
      rw [hx2]
      exact self_mem_setPy (le_of_lt hcol) e2
  · exact hsub _ hdmem
  · simp only [hset]
    exact getD_not_mem_set hP hcol hed
  · intro i hi
    simp only [hset] at hi ⊢
    rw [List.length_set] at hi
    by_cases hic : i = col
    · subst hic
      have hgr : (st1.P.set i e2).getD i 0 = e2 := by
        rw [List.getD_eq_getElem _ _ (by simpa using hi)]
        exact List.getElem_set_self (by simpa using hi)
      rw [hgr]
      exact hM
    · rw [List.getD_eq_getElem _ _ (by simpa using hi),
        List.getElem_set_ne (fun hc => hic hc.symm), ← List.getD_eq_getElem st1.P 0 hi]
      exact hpiv i hi

/-- Main invariant theorem for the re-pivoting search.  If `_repivot_used(col)` is
started in an invariant state in which `_check_unused(col)` fails (as at every call
site) and returns `True`, then: re-pivoting a fresh column restores the full
invariant, and re-pivoting an assigned column yields the partial invariant with that
column's previously assigned row dangling. -/
theorem repivotUsed_inv {M : Mat} {nn : Nat} :
    ∀ f col st st', FullInv M nn st → col ≤ st.P.length →
      (∀ st0, checkUnused M nn col st ≠ (true, st0)) →
      repivotUsed M nn f col st = .ok (true, st') →
      (col = st.P.length → FullInv M nn st') ∧
      (col < st.P.length → PartInv M nn st' (st.P.getD col 0)) := by
  intro f
  induction f using Nat.strong_induction_on with
  | _ f ihf =>
    rcases f with _ | f
    · intro col st st' _ _ _ h
      rw [repivotUsed_zero] at h
      exact absurd h (by simp)
    · intro col st st' hInv hcol hfail h
      have h0 := h
      rcases hre : repivotEntries M col st.P st.used with m | es
      · simp only [repivotUsed, repivotCore, hre] at h
        exact absurd h (by simp)
      · match hl1 : rpLoop1 M nn col st (es.insertionSort entryGE) with
        | .timeout =>
          simp only [repivotUsed, repivotCore, hre, hl1] at h
          exact absurd h (by simp)
        | .err m =>
          simp only [repivotUsed, repivotCore, hre, hl1] at h
          exact absurd h (by simp)
        | .ok (true, st1) =>
          simp only [repivotUsed, repivotCore, hre, hl1] at h
          obtain rfl : st1 = st' := (Prod.ext_iff.mp (PRes.ok.inj h)).2
          rcases rpLoop1_true hl1 with ⟨e, hes, uc, st2, hpy, hcu, hst⟩
          have hee : e ∈ es := (List.perm_insertionSort entryGE es).subset hes
          have hent := (mem_repivotEntries hre).mp hee
          rcases hent.2.2.1 with ⟨i2, hi2, hi2c⟩
          have huci : uc = i2 := by
            rw [hpy] at hi2
            exact Option.some.inj hi2.symm ▸ (Option.some.inj hi2).symm ▸ rfl
          have hucc : uc ≠ col := by rw [huci]; exact hi2c
          have huc : uc < st.P.length := pyIndex_some_lt hpy
          have hgd : st.P.getD uc 0 = e.2 := pyIndex_getD hpy
          have hPI : PartInv M nn st2 e.2 := by
            have := checkUnused_true_inv_lt hInv hcu huc
            rwa [hgd] at this
          have hMe : M e.2 col ≠ 0 := hent.2.1
          have hlen2 : st2.P.length = st.P.length := by
            rcases checkUnused_true_spec hcu with ⟨r, _, _, _, hst2, _⟩
            rw [hst2]
            simp only
            exact setPy_length_of_lt huc r
          constructor
          · intro hce
            rw [hst]
            exact writeBack_inv_eq hPI hMe (by omega)
          · intro hclt
            rw [hst]
            have hwb := writeBack_inv_lt hPI hMe (by omega)
            have hgd2 : st2.P.getD col 0 = st.P.getD col 0 := by
              rcases checkUnused_true_spec hcu with ⟨r, _, _, _, hst2, _⟩
              rw [hst2]
              simp only
              rw [setPy_eq_set huc, List.getD_eq_getElem _ _ (by simpa using hclt),
                List.getElem_set_ne (fun hc => hucc hc), ← List.getD_eq_getElem st.P 0 hclt]
            rwa [hgd2] at hwb
        | .ok (false, st1) =>
          simp only [repivotUsed, repivotCore, hre, hl1] at h
          rcases rpLoop2_true h with ⟨e, hes, uc, st2, hpy, hru, hst⟩
          have hee : e ∈ es := (List.perm_insertionSort entryGE es).subset hes
          have hent := (mem_repivotEntries hre).mp hee
          rcases hent.2.2.1 with ⟨i2, hi2, hi2c⟩
          have huci : uc = i2 := by
            rw [hpy] at hi2
            exact Option.some.inj hi2.symm ▸ (Option.some.inj hi2).symm ▸ rfl
          have hucc : uc ≠ col := by rw [huci]; exact hi2c
          have huc : uc < st.P.length := pyIndex_some_lt hpy
          have hgd : st.P.getD uc 0 = e.2 := pyIndex_getD hpy
          have hfailuc : ∀ st0, checkUnused M nn uc st ≠ (true, st0) := by
            rcases rpLoop1_false hl1 with ⟨_, hall⟩
            rcases hall e hes with ⟨uc2, hpy2, hfail2⟩
            have huu : uc2 = uc := by
              rw [hpy] at hpy2
              exact (Option.some.inj hpy2).symm
            exact huu ▸ hfail2
          have hIH := ihf f (Nat.lt_succ_self f) uc st st2 hInv (le_of_lt huc) hfailuc hru
          have hPI : PartInv M nn st2 e.2 := by
            have := hIH.2 huc
            rwa [hgd] at this
          have hMe : M e.2 col ≠ 0 := hent.2.1
          have hlen2 : st2.P.length = st.P.length := by
            rw [repivotUsed_true_length hru, if_pos huc]
          constructor
          · intro hce
            rw [hst]
            exact writeBack_inv_eq hPI hMe (by omega)
          · intro hclt
            by_cases hch : st2.P.getD col 0 = st.P.getD col 0
            · rw [hst]
              have hwb := writeBack_inv_lt hPI hMe (by omega)
              rwa [hch] at hwb
            · rcases repivotUsed_frame hru col hclt (fun hc => hucc hc.symm) hch with
                ⟨st3, hcu3⟩ | ⟨f2, st3, hf2, hru3⟩
              · exact absurd hcu3 (hfail st3)
              · have hmono := repivotUsed_mono_le (le_of_lt (Nat.lt_succ_of_lt hf2))
                  hru3 (by simp)
                have hse : st3 = st' := by
                  rw [hmono] at h0
                  exact (Prod.ext_iff.mp (PRes.ok.inj h0)).2
                subst hse
                exact (ihf f2 (Nat.lt_succ_of_lt hf2) col st st3 hInv hcol hfail hru3).2 hclt

/-! ## Soundness of `_pivot`: the result is a bijection with nonzero pivots -/

theorem pivotLoop_sound {M : Mat} {nn fuel : Nat} :
    ∀ k st st'', FullInv M nn st → st.P.length = nn - k → k ≤ nn →
      pivotLoop M nn fuel st (List.range' (nn - k) k) = .ok st'' →
      FullInv M nn st'' ∧ st''.P.length = nn := by
  intro k
  induction k with
  | zero =>
    intro st st'' hInv hlen _ h
    simp only [List.range', pivotLoop] at h
    obtain rfl : st = st'' := PRes.ok.inj h
    exact ⟨hInv, by omega⟩
  | succ k ihk =>
    intro st st'' hInv hlen hk h
    have hcols : List.range' (nn - (k + 1)) (k + 1) =
        (nn - (k + 1)) :: List.range' (nn - k) k := by
      have harg : nn - (k + 1) + 1 = nn - k := by omega
      rw [List.range'_succ, harg]
    rw [hcols] at h
    match hcu : checkUnused M nn (nn - (k + 1)) st with
    | (true, st1) =>
      simp only [pivotLoop, hcu] at h
      have hInv1 := checkUnused_true_inv_eq hInv hcu hlen.symm
      have hlen1 : st1.P.length = nn - k := by
        rcases checkUnused_true_spec hcu with ⟨r, _, _, _, hst1, _⟩
        rw [hst1]
        simp only
        rw [setPy_length_of_eq hlen.symm r]
        omega
      exact ihk st1 st'' hInv1 hlen1 (by omega) h
    | (false, st1) =>
      match hru : repivotUsed M nn fuel (nn - (k + 1)) st with
      | .timeout =>
        simp only [pivotLoop, hcu, hru] at h
        exact absurd h (by simp)
      | .err m =>
        simp only [pivotLoop, hcu, hru] at h
        exact absurd h (by simp)
      | .ok (false, st2) =>
        simp only [pivotLoop, hcu, hru] at h
        exact absurd h (by simp)
      | .ok (true, st2) =>
        simp only [pivotLoop, hcu, hru] at h
        have hfail : ∀ st0, checkUnused M nn (nn - (k + 1)) st ≠ (true, st0) := by
          intro st0 hq
          rw [hcu] at hq
          simp at hq
        have hInv2 := (repivotUsed_inv fuel (nn - (k + 1)) st st2 hInv (by omega)
          hfail hru).1 hlen.symm
        have hlen2 : st2.P.length = nn - k := by
          rw [repivotUsed_true_length hru, if_neg (by omega), hlen]
          omega
        exact ihk st2 st'' hInv2 hlen2 (by omega) h

/-- Soundness of the pivot search: when `_pivot` returns without raising, the
permutation list has length `n`, no duplicates, entries below `n`, and selects a
nonzero matrix entry for every column. -/
theorem pivotList_sound {M : Mat} {nn fuel : Nat} {P : List Nat}
    (h : pivotList M nn fuel = .ok P) :
    P.length = nn ∧ P.Nodup ∧ (∀ i < nn, P.getD i 0 < nn) ∧
      (∀ i < nn, M (P.getD i 0) i ≠ 0) := by
  unfold pivotList at h
  match hlp : pivotLoop M nn fuel ⟨[], []⟩ (List.range nn) with
  | .timeout => rw [hlp] at h; exact absurd h (by simp)
  | .err m => rw [hlp] at h; exact absurd h (by simp)
  | .ok st =>
    rw [hlp] at h
    obtain rfl : st.P = P := PRes.ok.inj h
    have hinit : FullInv M nn ⟨[], []⟩ :=
      ⟨List.nodup_nil, List.nodup_nil, by simp, by simp, by simp⟩
    rw [List.range_eq_range'] at hlp
    have hres := pivotLoop_sound nn ⟨[], []⟩ st hinit (by simp) (le_refl nn)
      (by rw [Nat.sub_self]; exact hlp)
    obtain ⟨⟨_, hP, hlt, hiff, hpiv⟩, hlen⟩ := hres
    refine ⟨hlen, hP, ?_, ?_⟩
    · intro i hi
      have hm : st.P.getD i 0 ∈ st.P := getD_mem (by omega)
      exact hlt _ ((hiff _).mp hm)
    · intro i hi
      exact hpiv i (by omega)

/-! ## Bijection helpers -/

theorem pivot_getD_inj {P : List Nat} (hP : P.Nodup) {c1 c2 : Nat}
    (h1 : c1 < P.length) (h2 : c2 < P.length)
    (he : P.getD c1 0 = P.getD c2 0) : c1 = c2 := by
  rw [List.getD_eq_getElem _ _ h1, List.getD_eq_getElem _ _ h2] at he
  have hinj := List.nodup_iff_injective_get.mp hP
  have hget : P.get ⟨c1, h1⟩ = P.get ⟨c2, h2⟩ := by
    simpa [List.get_eq_getElem] using he
  have := hinj hget
  simpa using this

theorem pivot_surj {nn : Nat} {P : List Nat} (hP : P.Nodup) (hlen : P.length = nn)
    (hval : ∀ i < nn, P.getD i 0 < nn) :
    ∀ r < nn, ∃ c, c < nn ∧ P.getD c 0 = r := by
  intro r hr
  have hinj : Set.InjOn (fun c => P.getD c 0) (Finset.range nn) := by
    intro c1 hc1 c2 hc2 he
    exact pivot_getD_inj hP (by rw [hlen]; simpa using hc1)
      (by rw [hlen]; simpa using hc2) he
  have hsub : (Finset.range nn).image (fun c => P.getD c 0) ⊆ Finset.range nn := by
    intro x hx
    rcases Finset.mem_image.mp hx with ⟨c, hc, hcx⟩
    exact Finset.mem_range.mpr (hcx ▸ hval c (Finset.mem_range.mp hc))
  have hcard : ((Finset.range nn).image (fun c => P.getD c 0)).card = nn := by
    rw [Finset.card_image_of_injOn hinj, Finset.card_range]
  have heq : (Finset.range nn).image (fun c => P.getD c 0) = Finset.range nn :=
    Finset.eq_of_subset_of_card_le hsub (by rw [hcard, Finset.card_range])
  have : r ∈ (Finset.range nn).image (fun c => P.getD c 0) := by
    rw [heq]
    exact Finset.mem_range.mpr hr
  rcases Finset.mem_image.mp this with ⟨c, hc, hcr⟩
  exact ⟨c, Finset.mem_range.mp hc, hcr⟩

/-- C1: whenever the pivot search returns a permutation list `P` without raising, `P`
is a bijection on `{0..n-1}` — it has length `n` and every row index below `n` appears
at exactly one position — and the selected pivot entry of every column is nonzero:
`M[P[c], c] ≠ 0`. -/
theorem claim_C1 (M : Mat) (nn fuel : Nat) (P : List Nat)
    (h : pivotList M nn fuel = .ok P) :
    P.length = nn ∧
    (∀ r < nn, ∃! c, c < nn ∧ P.getD c 0 = r) ∧
    (∀ c < nn, M (P.getD c 0) c ≠ 0) := by
  obtain ⟨hlen, hnd, hval, hpiv⟩ := pivotList_sound h
  refine ⟨hlen, ?_, hpiv⟩
  intro r hr
  rcases pivot_surj hnd hlen hval r hr with ⟨c, hc, hcr⟩
  refine ⟨c, ⟨hc, hcr⟩, ?_⟩
  rintro c2 ⟨hc2, hc2r⟩
  exact pivot_getD_inj hnd (by omega) (by omega) (by rw [hcr, hc2r])

/-- Witness for C1 at the concrete matrix `Abad` (whose pivot run exercises the
re-pivoting step): the search returns `P = [1, 0, 2]`, and the conclusion holds. -/
theorem claim_C1_witness :
    pivotList Abad 3 9 = .ok [1, 0, 2] ∧
    ([1, 0, 2] : List Nat).length = 3 ∧
    (∀ r < 3, ∃! c, c < 3 ∧ ([1, 0, 2] : List Nat).getD c 0 = r) ∧
    (∀ c < 3, Abad (([1, 0, 2] : List Nat).getD c 0) c ≠ 0) :=
  ⟨by decide, claim_C1 Abad 3 9 [1, 0, 2] (by decide)⟩

/-! ## Non-termination of the re-pivoting search on `Mloop` and `Mzc` -/

theorem Mloop_cycle : ∀ f,
    repivotUsed Mloop 3 f 0 ⟨[0, 1], [0, 1]⟩ = .timeout ∧
    repivotUsed Mloop 3 f 1 ⟨[0, 1], [0, 1]⟩ = .timeout := by
  intro f
  induction f with
  | zero => exact ⟨rfl, rfl⟩
  | succ f ih =>
    constructor
    · have hstep : repivotUsed Mloop 3 (f + 1) 0 ⟨[0, 1], [0, 1]⟩ =
          (match repivotUsed Mloop 3 f 1 ⟨[0, 1], [0, 1]⟩ with
            | .timeout => .timeout
            | .err m => .err m
            | .ok (true, st1) => .ok (true, ⟨st1.used, setPy st1.P 0 1⟩)
            | .ok (false, _) =>
                rpLoop2 Mloop 3 (repivotUsed Mloop 3 f) 0 ⟨[0, 1], [0, 1]⟩ []) := rfl
      rw [hstep, ih.2]
    · have hstep : repivotUsed Mloop 3 (f + 1) 1 ⟨[0, 1], [0, 1]⟩ =
          (match repivotUsed Mloop 3 f 0 ⟨[0, 1], [0, 1]⟩ with
            | .timeout => .timeout
            | .err m => .err m
            | .ok (true, st1) => .ok (true, ⟨st1.used, setPy st1.P 1 0⟩)
            | .ok (false, _) =>
                rpLoop2 Mloop 3 (repivotUsed Mloop 3 f) 1 ⟨[0, 1], [0, 1]⟩ []) := rfl
      rw [hstep, ih.1]

theorem Mloop_repivot2_timeout : ∀ f,
    repivotUsed Mloop 3 f 2 ⟨[0, 1], [0, 1]⟩ = .timeout := by
  intro f
  match f with
  | 0 => rfl
  | f + 1 =>
    have hstep : repivotUsed Mloop 3 (f + 1) 2 ⟨[0, 1], [0, 1]⟩ =
        (match repivotUsed Mloop 3 f 1 ⟨[0, 1], [0, 1]⟩ with
          | .timeout => .timeout
          | .err m => .err m
          | .ok (true, st1) => .ok (true, ⟨st1.used, setPy st1.P 2 1⟩)
          | .ok (false, _) =>
              rpLoop2 Mloop 3 (repivotUsed Mloop 3 f) 2 ⟨[0, 1], [0, 1]⟩ [(1, 0)]) := rfl
    rw [hstep, (Mloop_cycle f).2]

theorem Mloop_pivot_timeout : ∀ f, pivotList Mloop 3 f = .timeout := by
  intro f
  have hloop : pivotLoop Mloop 3 f ⟨[], []⟩ [0, 1, 2] =
      (match repivotUsed Mloop 3 f 2 ⟨[0, 1], [0, 1]⟩ with
        | .timeout => .timeout
        | .err m => .err m
        | .ok (true, st1) => pivotLoop Mloop 3 f st1 []
        | .ok (false, _) => .err .colOfZeros) := rfl
  have hrange : (List.range 3) = [0, 1, 2] := rfl
  show (match pivotLoop Mloop 3 f ⟨[], []⟩ (List.range 3) with
    | .timeout => (.timeout : PRes (List Nat))
    | .err m => .err m
    | .ok st => .ok st.P) = .timeout
  rw [hrange, hloop, Mloop_repivot2_timeout f]

theorem Mzc_cycle : ∀ f,
    repivotUsed Mzc 4 f 0 ⟨[0, 1], [0, 1]⟩ = .timeout ∧
    repivotUsed Mzc 4 f 1 ⟨[0, 1], [0, 1]⟩ = .timeout := by
  intro f
  induction f with
  | zero => exact ⟨rfl, rfl⟩
  | succ f ih =>
    constructor
    · have hstep : repivotUsed Mzc 4 (f + 1) 0 ⟨[0, 1], [0, 1]⟩ =
          (match repivotUsed Mzc 4 f 1 ⟨[0, 1], [0, 1]⟩ with
            | .timeout => .timeout
            | .err m => .err m
            | .ok (true, st1) => .ok (true, ⟨st1.used, setPy st1.P 0 1⟩)
            | .ok (false, _) =>
                rpLoop2 Mzc 4 (repivotUsed Mzc 4 f) 0 ⟨[0, 1], [0, 1]⟩ []) := rfl
      rw [hstep, ih.2]
    · have hstep : repivotUsed Mzc 4 (f + 1) 1 ⟨[0, 1], [0, 1]⟩ =
          (match repivotUsed Mzc 4 f 0 ⟨[0, 1], [0, 1]⟩ with
            | .timeout => .timeout
            | .err m => .err m
            | .ok (true, st1) => .ok (true, ⟨st1.used, setPy st1.P 1 0⟩)
            | .ok (false, _) =>
                rpLoop2 Mzc 4 (repivotUsed Mzc 4 f) 1 ⟨[0, 1], [0, 1]⟩ []) := rfl
      rw [hstep, ih.1]

theorem Mzc_repivot2_timeout : ∀ f,
    repivotUsed Mzc 4 f 2 ⟨[0, 1], [0, 1]⟩ = .timeout := by
  intro f
  match f with
  | 0 => rfl
  | f + 1 =>
    have hstep : repivotUsed Mzc 4 (f + 1) 2 ⟨[0, 1], [0, 1]⟩ =
        (match repivotUsed Mzc 4 f 1 ⟨[0, 1], [0, 1]⟩ with
          | .timeout => .timeout
          | .err m => .err m
          | .ok (true, st1) => .ok (true, ⟨st1.used, setPy st1.P 2 1⟩)
          | .ok (false, _) =>
              rpLoop2 Mzc 4 (repivotUsed Mzc 4 f) 2 ⟨[0, 1], [0, 1]⟩ [(1, 0)]) := rfl
    rw [hstep, (Mzc_cycle f).2]

theorem Mzc_pivot_timeout : ∀ f, pivotList Mzc 4 f = .timeout := by
  intro f
  have hloop : pivotLoop Mzc 4 f ⟨[], []⟩ [0, 1, 2, 3] =
      (match repivotUsed Mzc 4 f 2 ⟨[0, 1], [0, 1]⟩ with
        | .timeout => .timeout
        | .err m => .err m
        | .ok (true, st1) => pivotLoop Mzc 4 f st1 [3]
        | .ok (false, _) => .err .colOfZeros) := rfl
  have hrange : (List.range 4) = [0, 1, 2, 3] := rfl
  show (match pivotLoop Mzc 4 f ⟨[], []⟩ (List.range 4) with
    | .timeout => (.timeout : PRes (List Nat))
    | .err m => .err m
    | .ok st => .ok st.P) = .timeout
  rw [hrange, hloop, Mzc_repivot2_timeout f]

/-! ## Termination on all-nonzero matrices, and failure on zero columns -/

theorem FullInv_used_length {M : Mat} {nn : Nat} {st : PivSt} (h : FullInv M nn st) :
    st.used.length = st.P.length := by
  obtain ⟨hU, hP, _, hiff, _⟩ := h
  have h1 : st.used.toFinset = st.P.toFinset := by
    ext x
    simp only [List.mem_toFinset]
    exact (hiff x).symm
  have h2 := List.toFinset_card_of_nodup hU
  have h3 := List.toFinset_card_of_nodup hP
  rw [← h2, ← h3, h1]

theorem exists_unused {nn : Nat} {used : List Nat} (hU : used.Nodup)
    (hlt : ∀ r ∈ used, r < nn) (hlen : used.length < nn) :
    ∃ r, r < nn ∧ r ∉ used := by
  by_contra hc
  push_neg at hc
  have hsub : Finset.range nn ⊆ used.toFinset := by
    intro x hx
    exact List.mem_toFinset.mpr (hc x (Finset.mem_range.mp hx))
  have hcard := Finset.card_le_card hsub
  rw [Finset.card_range, List.toFinset_card_of_nodup hU] at hcard
  omega

theorem checkUnused_true_of_exists {M : Mat} {nn col : Nat} {st : PivSt}
    (h : ∃ r, r < nn ∧ r ∉ st.used ∧ M r col ≠ 0) :
    ∃ st', checkUnused M nn col st = (true, st') := by
  rcases h with ⟨r, h1, h2, h3⟩
  have hmem : (M r col, r) ∈ unusedEntries M nn col st :=
    mem_unusedEntries.mpr ⟨h1, h2, h3, rfl⟩
  have hne : unusedEntries M nn col st ≠ [] := by
    intro h0
    rw [h0] at hmem
    simp at hmem
  rcases sortDesc_head_max hne with ⟨e, rest, hs, _, _⟩
  refine ⟨⟨st.used ++ [e.2], setPy st.P col e.2⟩, ?_⟩
  unfold checkUnused
  rw [if_neg (by simpa [List.isEmpty_iff] using hne), hs]

theorem allNonzero_pivotLoop {M : Mat} {nn fuel : Nat}
    (hnz : ∀ i < nn, ∀ j < nn, M i j ≠ 0) :
    ∀ k st, FullInv M nn st → st.P.length = nn - k → k ≤ nn →
      ∃ st2, pivotLoop M nn fuel st (List.range' (nn - k) k) = .ok st2 := by
  intro k
  induction k with
  | zero =>
    intro st _ _ _
    exact ⟨st, by simp [List.range', pivotLoop]⟩
  | succ k ihk =>
    intro st hInv hlen hk
    have hcols : List.range' (nn - (k + 1)) (k + 1) =
        (nn - (k + 1)) :: List.range' (nn - k) k := by
      have harg : nn - (k + 1) + 1 = nn - k := by omega
      rw [List.range'_succ, harg]
    have hcol : nn - (k + 1) < nn := by omega
    have hul : st.used.length < nn := by
      rw [FullInv_used_length hInv, hlen]
      omega
    rcases exists_unused hInv.1 hInv.2.2.1 hul with ⟨r, hr1, hr2⟩
    rcases checkUnused_true_of_exists ⟨r, hr1, hr2, hnz r hr1 _ hcol⟩ with ⟨st1, hcu⟩
    have hInv1 := checkUnused_true_inv_eq hInv hcu hlen.symm
    have hlen1 : st1.P.length = nn - k := by
      rcases checkUnused_true_spec hcu with ⟨r2, _, _, _, hst1, _⟩
      rw [hst1]
      simp only
      rw [setPy_length_of_eq hlen.symm r2]
      omega
    rcases ihk st1 hInv1 hlen1 (by omega) with ⟨st2, hst2⟩
    refine ⟨st2, ?_⟩
    rw [hcols]
    simp only [pivotLoop, hcu]
    exact hst2

/-- C3 counterexample: the claim "the re-pivoting search terminates on every square
matrix, with recursion depth bounded by n" is false.  On the 3×3 matrix `Mloop`, the
state actually reached while processing column 2 makes `_repivot_used` bounce between
columns 0 and 1 forever: for every fuel bound the search (and hence the whole
`_pivot`) is still running. -/
theorem claim_C3_counterexample :
    ¬ RepivotTerminates Mloop 3 2 ⟨[0, 1], [0, 1]⟩ ∧ ¬ PivotTerminates Mloop 3 := by
  constructor
  · rintro ⟨f, hf⟩
    exact hf (Mloop_repivot2_timeout f)
  · rintro ⟨f, hf⟩
    exact hf (Mloop_pivot_timeout f)

/-- C3 amended: the re-pivoting recursion does not terminate on every square matrix
(`Mloop` makes it recurse forever), so no recursion-depth bound holds in general;
termination does hold whenever no column ever needs re-pivoting — e.g. on every
matrix all of whose entries are nonzero, the search returns under any fuel bound,
never invoking `_repivot_used`. -/
theorem claim_C3_amended (M : Mat) (nn fuel : Nat)
    (hnz : ∀ i < nn, ∀ j < nn, M i j ≠ 0) :
    ∃ P, pivotList M nn fuel = .ok P := by
  have hinit : FullInv M nn ⟨[], []⟩ :=
    ⟨List.nodup_nil, List.nodup_nil, by simp, by simp, by simp⟩
  rcases allNonzero_pivotLoop hnz nn ⟨[], []⟩ hinit (by simp) (le_refl nn) with ⟨st2, h⟩
  rw [Nat.sub_self] at h
  refine ⟨st2.P, ?_⟩
  show (match pivotLoop M nn fuel ⟨[], []⟩ (List.range nn) with
    | .timeout => (.timeout : PRes (List Nat))
    | .err m => .err m
    | .ok st => .ok st.P) = .ok st2.P
  rw [List.range_eq_range', h]

/-- Witness for the amended C3 at the all-ones 2×2 matrix, with fuel 0: the search
returns even with no fuel for re-pivoting. -/
theorem claim_C3_witness : ∃ P, pivotList Mones 2 0 = .ok P :=
  claim_C3_amended Mones 2 0 (by decide)

/-- C6 counterexample: the claim "every square matrix containing an all-zero column
raises the unpivotable-matrix ValueError" is false.  `Mzc` has an all-zero column
(column 3), yet processing column 2 diverges, so `_pivot` neither raises nor returns
under any fuel bound. -/
theorem claim_C6_counterexample :
    (∀ r < 4, Mzc r 3 = 0) ∧ ¬ PivotRaises Mzc 4 ∧ ¬ PivotTerminates Mzc 4 := by
  refine ⟨by decide, ?_, ?_⟩
  · rintro ⟨f, m, hf⟩
    rw [Mzc_pivot_timeout f] at hf
    exact absurd hf (by simp)
  · rintro ⟨f, hf⟩
    exact hf (Mzc_pivot_timeout f)

/-- C6 amended: a matrix with an all-zero column never yields a pivot assignment —
for every fuel bound the search either raises or is still running, and no partial
result is returned (when the search terminates, it raises the unpivotable error, as
at `Mzc2`; on some inputs, like `Mzc`, it does not terminate). -/
theorem claim_C6_amended (M : Mat) (nn c : Nat) (hc : c < nn)
    (hz : ∀ r < nn, M r c = 0) (f : Nat) (P : List Nat) :
    pivotList M nn f ≠ .ok P := by
  intro h
  obtain ⟨hlen, hnd, hval, hpiv⟩ := pivotList_sound h
  exact hpiv c hc (hz _ (hval c hc))

/-- Witness for the amended C6 at `Mzc2` (zero column 1): the search never succeeds,
and in fact terminates with the unpivotable-matrix error. -/
theorem claim_C6_witness :
    (∀ r < 2, Mzc2 r 1 = 0) ∧ pivotList Mzc2 2 5 ≠ .ok [0, 1] ∧
    pivotList Mzc2 2 5 = .err .colOfZeros :=
  ⟨by decide, claim_C6_amended Mzc2 2 1 (by decide) (by decide) 5 [0, 1], by decide⟩

/-! ## Correctness of the in-place Crout loop -/

theorem setM_self (A : Mat) (i j : Nat) (v : ℚ) : setM A i j v i j = v := by
  simp [setM]

theorem setM_ne {a b i j : Nat} (h : ¬(a = i ∧ b = j)) (A : Mat) (v : ℚ) :
    setM A i j v a b = A a b := by
  simp [setM, h]

theorem croutUAux_succ (A : Mat) (j m : Nat) :
    croutUAux A j (m + 1) = setM (croutUAux A j m) m j
      (croutUAux A j m m j -
        ∑ k ∈ Finset.range m, croutUAux A j m m k * croutUAux A j m k j) := by
  unfold croutUAux
  rw [List.range_succ, List.foldl_append]
  rfl

theorem croutUAux_ne_col {j : Nat} : ∀ {m : Nat} (A : Mat) {a b : Nat}, b ≠ j →
    croutUAux A j m a b = A a b := by
  intro m
  induction m with
  | zero => intro A a b _; rfl
  | succ m ih =>
    intro A a b hb
    rw [croutUAux_succ, setM_ne (fun hc => hb hc.2)]
    exact ih A hb

theorem croutUAux_row_ge {j : Nat} : ∀ {m : Nat} (A : Mat) {a : Nat}, m ≤ a →
    croutUAux A j m a j = A a j := by
  intro m
  induction m with
  | zero => intro A a _; rfl
  | succ m ih =>
    intro A a ha
    rw [croutUAux_succ, setM_ne (fun hc => by omega)]
    exact ih A (by omega)

theorem croutUAux_stable {j : Nat} {A : Mat} {m m2 : Nat} (hle : m ≤ m2) {i : Nat}
    (hi : i < m) : croutUAux A j m2 i j = croutUAux A j m i j := by
  induction m2, hle using Nat.le_induction with
  | base => rfl
  | succ n hn ihn =>
    rw [croutUAux_succ, setM_ne (fun hc => by omega)]
    exact ihn

theorem croutUAux_val {j : Nat} {A : Mat} : ∀ {m : Nat}, m ≤ j + 1 → ∀ {i : Nat}, i < m →
    croutUAux A j m i j =
      A i j - ∑ k ∈ Finset.range i, A i k * croutUAux A j m k j := by
  intro m
  induction m with
  | zero => intro _ i hi; omega
  | succ m ih =>
    intro hm i hi
    have hsum : ∑ k ∈ Finset.range i, A i k * croutUAux A j (m + 1) k j =
        ∑ k ∈ Finset.range i, A i k * croutUAux A j m k j := by
      apply Finset.sum_congr rfl
      intro k hk
      have hk2 : k < i := Finset.mem_range.mp hk
      rw [croutUAux_stable (Nat.le_succ m) (by omega)]
    rw [hsum]
    by_cases him : i = m
    · subst him
      rw [croutUAux_succ, setM_self]
      rw [croutUAux_row_ge A (le_refl i)]
      congr 1
      apply Finset.sum_congr rfl
      intro k hk
      have hk2 : k < i := Finset.mem_range.mp hk
      rw [croutUAux_ne_col A (show k ≠ j by omega)]
    · have hi2 : i < m := by omega
      rw [croutUAux_succ, setM_ne (fun hc => him hc.1)]
      exact ih (by omega) hi2

theorem croutU_ne_col {A : Mat} {j a b : Nat} (hb : b ≠ j) : croutU A j a b = A a b :=
  croutUAux_ne_col A hb

theorem croutU_row_gt {A : Mat} {j a : Nat} (ha : j < a) : croutU A j a j = A a j :=
  croutUAux_row_ge A ha

theorem croutU_val {A : Mat} {j i : Nat} (hij : i ≤ j) :
    croutU A j i j = A i j - ∑ k ∈ Finset.range i, A i k * croutU A j k j :=
  croutUAux_val (le_refl (j + 1)) (by omega)

theorem croutLAux_succ (B : Mat) (j m : Nat) :
    croutLAux B j (m + 1) = setM (croutLAux B j m) (j + 1 + m) j
      ((croutLAux B j m (j + 1 + m) j -
          ∑ k ∈ Finset.range j, croutLAux B j m (j + 1 + m) k * croutLAux B j m k j) /
        croutLAux B j m j j) := by
  unfold croutLAux
  rw [List.range'_1_concat, List.foldl_append]
  rfl

theorem croutLAux_ne {B : Mat} {j : Nat} : ∀ {m : Nat} {a b : Nat}, b ≠ j ∨ a ≤ j →
    croutLAux B j m a b = B a b := by
  intro m
  induction m with
  | zero => intro a b _; rfl
  | succ m ih =>
    intro a b hab
    rw [croutLAux_succ, setM_ne ?hne]
    · exact ih hab
    · rcases hab with hb | ha
      · exact fun hc => hb hc.2
      · exact fun hc => by omega
  
theorem croutLAux_row_ge {B : Mat} {j : Nat} : ∀ {m a : Nat}, j + 1 + m ≤ a →
    croutLAux B j m a j = B a j := by
  intro m
  induction m with
  | zero => intro a _; rfl
  | succ m ih =>
    intro a ha
    rw [croutLAux_succ, setM_ne (fun hc => by omega)]
    exact ih (by omega)

theorem croutLAux_val {B : Mat} {j : Nat} : ∀ {m i : Nat}, j + 1 ≤ i → i < j + 1 + m →
    croutLAux B j m i j =
      (B i j - ∑ k ∈ Finset.range j, B i k * B k j) / B j j := by
  intro m
  induction m with
  | zero => intro i h1 h2; omega
  | succ m ih =>
    intro i h1 h2
    by_cases him : i = j + 1 + m
    · subst him
      rw [croutLAux_succ, setM_self]
      rw [croutLAux_row_ge (le_refl _)]
      rw [croutLAux_ne (Or.inr (le_refl j))]
      congr 2
      apply Finset.sum_congr rfl
      intro k hk
      have hk2 : k < j := Finset.mem_range.mp hk
      rw [croutLAux_ne (Or.inl (show k ≠ j by omega)),
        croutLAux_ne (Or.inr (show k ≤ j by omega))]
    · rw [croutLAux_succ, setM_ne (fun hc => him hc.1)]
      exact ih h1 (by omega)

theorem croutL_ne {B : Mat} {nn j a b : Nat} (h : b ≠ j ∨ a ≤ j) :
    croutL B nn j a b = B a b :=
  croutLAux_ne h

theorem croutL_val {B : Mat} {nn j i : Nat} (h1 : j < i) (h2 : i < nn) :
    croutL B nn j i j = (B i j - ∑ k ∈ Finset.range j, B i k * B k j) / B j j :=
  croutLAux_val h1 (by omega)

theorem LUcombinedAux_succ (A : Mat) (nn m : Nat) :
    LUcombinedAux A nn (m + 1) = croutL (croutU (LUcombinedAux A nn m) m) nn m := by
  unfold LUcombinedAux
  rw [List.range_succ, List.foldl_append]
  rfl

theorem LUcombinedAux_col_ge {A : Mat} {nn : Nat} : ∀ {m a b : Nat}, m ≤ b →
    LUcombinedAux A nn m a b = A a b := by
  intro m
  induction m with
  | zero => intro a b _; rfl
  | succ m ih =>
    intro a b hb
    rw [LUcombinedAux_succ, croutL_ne (Or.inl (show b ≠ m by omega)),
      croutU_ne_col (show b ≠ m by omega)]
    exact ih (by omega)

theorem LUcombinedAux_stable {A : Mat} {nn : Nat} {m m2 : Nat} (hle : m ≤ m2)
    {a b : Nat} (hb : b < m) : LUcombinedAux A nn m2 a b = LUcombinedAux A nn m a b := by
  induction m2, hle using Nat.le_induction with
  | base => rfl
  | succ n hn ihn =>
    rw [LUcombinedAux_succ, croutL_ne (Or.inl (show b ≠ n by omega)),
      croutU_ne_col (show b ≠ n by omega)]
    exact ihn

theorem LUcombined_colstep {A : Mat} {nn : Nat} {k j : Nat} (hk : k ≤ j) (hj : j < nn) :
    croutU (LUcombinedAux A nn j) j k j = LUcombined A nn k j := by
  rw [LUcombined, LUcombinedAux_stable (show j + 1 ≤ nn by omega) (show j < j + 1 by omega),
    LUcombinedAux_succ, croutL_ne (Or.inr hk)]

theorem LUcombined_upper {A : Mat} {nn : Nat} {i j : Nat} (hij : i ≤ j) (hj : j < nn) :
    LUcombined A nn i j =
      A i j - ∑ k ∈ Finset.range i, LUcombined A nn i k * LUcombined A nn k j := by
  have hstep : LUcombined A nn i j = croutU (LUcombinedAux A nn j) j i j :=
    (LUcombined_colstep hij hj).symm
  rw [hstep, croutU_val hij, LUcombinedAux_col_ge (le_refl j)]
  congr 1
  apply Finset.sum_congr rfl
  intro k hk
  have hk2 : k < i := Finset.mem_range.mp hk
  rw [LUcombined_colstep (by omega) hj]
  congr 1
  rw [LUcombined, LUcombinedAux_stable (show j ≤ nn by omega) (show k < j by omega)]

theorem LUcombined_lower {A : Mat} {nn : Nat} {i j : Nat} (hji : j < i) (hi : i < nn) :
    LUcombined A nn i j =
      (A i j - ∑ k ∈ Finset.range j, LUcombined A nn i k * LUcombined A nn k j) /
        LUcombined A nn j j := by
  have hj : j < nn := by omega
  have hF : LUcombined A nn i j = croutL (croutU (LUcombinedAux A nn j) j) nn j i j := by
    rw [LUcombined, LUcombinedAux_stable (show j + 1 ≤ nn by omega) (show j < j + 1 by omega),
      LUcombinedAux_succ]
  rw [hF, croutL_val hji hi]
  rw [croutU_row_gt hji, LUcombinedAux_col_ge (le_refl j)]
  rw [LUcombined_colstep (le_refl j) hj]
  congr 2
  apply Finset.sum_congr rfl
  intro k hk
  have hk2 : k < j := Finset.mem_range.mp hk
  rw [croutU_ne_col (show k ≠ j by omega)]
  rw [LUcombined_colstep (by omega) hj]
  congr 1
  rw [LUcombined, LUcombinedAux_stable (show j ≤ nn by omega) (show k < j by omega)]

/-- The split L and U multiply back to the input of the Crout loop, provided every
diagonal entry of the combined matrix (the divisors of the lower loop) is nonzero. -/
theorem crout_mul {A : Mat} {nn : Nat}
    (hdiag : ∀ j < nn, LUcombined A nn j j ≠ 0) :
    ∀ i, i < nn → ∀ j, j < nn →
      matMul nn (lowerOf (LUcombined A nn)) (upperOf (LUcombined A nn)) i j = A i j := by
  intro i hi j hj
  unfold matMul
  rcases le_or_lt i j with hij | hji
  · have hzero : ∀ k ∈ Finset.range nn, k ∉ Finset.range (i + 1) →
        lowerOf (LUcombined A nn) i k * upperOf (LUcombined A nn) k j = 0 := by
      intro k _ hk
      have hik : i < k := by
        by_contra hc
        exact hk (Finset.mem_range.mpr (by omega))
      unfold lowerOf
      rw [if_neg (show ¬i = k by omega), if_pos hik]
      exact zero_mul _
    rw [← Finset.sum_subset (Finset.range_subset.mpr (by omega : i + 1 ≤ nn)) hzero]
    rw [Finset.sum_range_succ]
    have hlast : lowerOf (LUcombined A nn) i i * upperOf (LUcombined A nn) i j =
        LUcombined A nn i j := by
      unfold lowerOf upperOf
      rw [if_pos rfl, if_neg (show ¬i > j by omega)]
      exact one_mul _
    have hsum : ∑ k ∈ Finset.range i,
        lowerOf (LUcombined A nn) i k * upperOf (LUcombined A nn) k j =
        ∑ k ∈ Finset.range i, LUcombined A nn i k * LUcombined A nn k j := by
      apply Finset.sum_congr rfl
      intro k hk
      have hk2 : k < i := Finset.mem_range.mp hk
      unfold lowerOf upperOf
      rw [if_neg (show ¬i = k by omega), if_neg (show ¬i < k by omega),
        if_neg (show ¬k > j by omega)]
    rw [hlast, hsum, LUcombined_upper hij hj]
    ring
  · have hzero : ∀ k ∈ Finset.range nn, k ∉ Finset.range (j + 1) →
        lowerOf (LUcombined A nn) i k * upperOf (LUcombined A nn) k j = 0 := by
      intro k _ hk
      have hjk : j < k := by
        by_contra hc
        exact hk (Finset.mem_range.mpr (by omega))
      unfold upperOf
      rw [if_pos hjk]
      exact mul_zero _
    rw [← Finset.sum_subset (Finset.range_subset.mpr (by omega : j + 1 ≤ nn)) hzero]
    rw [Finset.sum_range_succ]
    have hlast : lowerOf (LUcombined A nn) i j * upperOf (LUcombined A nn) j j =
        LUcombined A nn i j * LUcombined A nn j j := by
      unfold lowerOf upperOf
      rw [if_neg (show ¬i = j by omega), if_neg (show ¬i < j by omega),
        if_neg (show ¬j > j by omega)]
    have hsum : ∑ k ∈ Finset.range j,
        lowerOf (LUcombined A nn) i k * upperOf (LUcombined A nn) k j =
        ∑ k ∈ Finset.range j, LUcombined A nn i k * LUcombined A nn k j := by
      apply Finset.sum_congr rfl
      intro k hk
      have hk2 : k < j := Finset.mem_range.mp hk
      unfold lowerOf upperOf
      rw [if_neg (show ¬i = k by omega), if_neg (show ¬i < k by omega),
        if_neg (show ¬k > j by omega)]
    rw [hlast, hsum, LUcombined_lower hji hi,
      div_mul_cancel₀ _ (hdiag j (by omega))]
    ring

/-- Decomposes a successful `LU` run into its parts. -/
theorem LUfun_ok_parts {M : Mat} {nn fuel : Nat} {P : List Nat} {d : ℤ} {L U : Mat}
    (h : LUfun M nn fuel = .ok (P, d, L, U)) :
    pivotList M nn fuel = .ok P ∧ detP P = some d ∧
    L = lowerOf (LUcombined (matMul nn (matrixP P) M) nn) ∧
    U = upperOf (LUcombined (matMul nn (matrixP P) M) nn) := by
  unfold LUfun at h
  match hpl : pivotList M nn fuel with
  | .timeout =>
    simp only [hpl] at h
    exact absurd h (by simp)
  | .err m =>
    simp only [hpl] at h
    exact absurd h (by simp)
  | .ok P0 =>
    simp only [hpl] at h
    match hdp : detP P0 with
    | none =>
      simp only [hdp] at h
      exact absurd h (by simp)
    | some d0 =>
      simp only [hdp] at h
      have hparts := Prod.ext_iff.mp (PRes.ok.inj h)
      have hP : P0 = P := hparts.1
      have hparts2 := Prod.ext_iff.mp hparts.2
      have hd : d0 = d := hparts2.1
      have hparts3 := Prod.ext_iff.mp hparts2.2
      subst hP
      subst hd
      exact ⟨rfl, hdp, hparts3.1.symm, hparts3.2.symm⟩

theorem Abad_invertible : MatInvertible 3 Abad := by
  refine ⟨AbadInv, ?_, ?_⟩
  · intro i hi j hj
    interval_cases i <;> interval_cases j <;>
      norm_num [matMul, Abad, AbadInv, matOf, idMat, Finset.sum_range_succ, List.getD]
  · intro i hi j hj
    interval_cases i <;> interval_cases j <;>
      norm_num [matMul, Abad, AbadInv, matOf, idMat, Finset.sum_range_succ, List.getD]

/-- C2 counterexample: the claim "for every invertible M on which LU returns,
P·M = L·U exactly" is false.  `Abad` is invertible (an explicit two-sided inverse is
exhibited), `LU` returns on it, yet the permuted product differs from `L·U` at entry
(2,1): the chosen permutation makes `U[1,1] = 0`, and the lower loop divides by that
zero pivot. -/
theorem claim_C2_counterexample :
    MatInvertible 3 Abad ∧
    ∃ P d L U, LUfun Abad 3 9 = .ok (P, d, L, U) ∧
      matMul 3 (matrixP P) Abad 2 1 ≠ matMul 3 L U 2 1 := by
  constructor
  · exact Abad_invertible
  · refine ⟨[1, 0, 2], -1,
      lowerOf (LUcombined (matMul 3 (matrixP [1, 0, 2]) Abad) 3),
      upperOf (LUcombined (matMul 3 (matrixP [1, 0, 2]) Abad) 3), ?_, ?_⟩
    · with_unfolding_all rfl
    · norm_num [LUcombined, LUcombinedAux, croutU, croutL, croutUAux, croutLAux,
        lowerOf, upperOf, List.range_succ, List.range', setM, matMul, matrixP, Abad,
        matOf, Finset.sum_range_succ, List.getD]

theorem LUfun_mul {M : Mat} {nn fuel : Nat} {P : List Nat} {d : ℤ} {L U : Mat}
    (h : LUfun M nn fuel = .ok (P, d, L, U)) (hdiag : ∀ j < nn, U j j ≠ 0) :
    ∀ i < nn, ∀ j < nn, matMul nn (matrixP P) M i j = matMul nn L U i j := by
  obtain ⟨hpl, hdp, hL, hU⟩ := LUfun_ok_parts h
  intro i hi j hj
  have hdiag2 : ∀ j2 < nn, LUcombined (matMul nn (matrixP P) M) nn j2 j2 ≠ 0 := by
    intro j2 hj2
    have hjj := hdiag j2 hj2
    rw [hU] at hjj
    unfold upperOf at hjj
    rw [if_neg (show ¬j2 > j2 by omega)] at hjj
    exact hjj
  rw [hL, hU]
  exact (crout_mul hdiag2 i hi j hj).symm

/-- C2 amended: whenever `LU` returns and every diagonal entry of the returned `U`
(the pivots the lower loop divides by) is nonzero, the decomposition is exact:
`P·M = L·U` entrywise on the n×n block. -/
theorem claim_C2_amended (M : Mat) (nn fuel : Nat) (P : List Nat) (d : ℤ) (L U : Mat)
    (h : LUfun M nn fuel = .ok (P, d, L, U)) (hdiag : ∀ j < nn, U j j ≠ 0) :
    ∀ i < nn, ∀ j < nn, matMul nn (matrixP P) M i j = matMul nn L U i j :=
  LUfun_mul h hdiag

/-- Witness for the amended C2 at the identity matrix of size 2. -/
theorem claim_C2_witness :
    (∀ j < 2, upperOf (LUcombined (matMul 2 (matrixP [0, 1]) idMat) 2) j j ≠ 0) ∧
    (∀ i < 2, ∀ j < 2, matMul 2 (matrixP [0, 1]) idMat i j =
      matMul 2 (lowerOf (LUcombined (matMul 2 (matrixP [0, 1]) idMat) 2))
        (upperOf (LUcombined (matMul 2 (matrixP [0, 1]) idMat) 2)) i j) :=
  ⟨by
    intro j hj
    interval_cases j <;>
      norm_num [LUcombined, LUcombinedAux, croutU, croutL, croutUAux, croutLAux,
        upperOf, List.range_succ, List.range', setM, matMul, matrixP, idMat,
        Finset.sum_range_succ, List.getD],
   claim_C2_amended idMat 2 5 [0, 1] 1
    (lowerOf (LUcombined (matMul 2 (matrixP [0, 1]) idMat) 2))
    (upperOf (LUcombined (matMul 2 (matrixP [0, 1]) idMat) 2)) rfl
    (by
      intro j hj
      interval_cases j <;>
        norm_num [LUcombined, LUcombinedAux, croutU, croutL, croutUAux, croutLAux,
          upperOf, List.range_succ, List.range', setM, matMul, matrixP, idMat,
          Finset.sum_range_succ, List.getD])⟩

/-! ## Forward and back substitution solve the triangular systems -/

theorem forwardList_length (L : Mat) (bp : Nat → ℚ) : ∀ k, (forwardList L bp k).length = k := by
  intro k
  induction k with
  | zero => rfl
  | succ k ih => simp [forwardList, ih]

theorem forwardList_stable {L : Mat} {bp : Nat → ℚ} {k k2 : Nat} (hle : k ≤ k2)
    {i : Nat} (hi : i < k) :
    (forwardList L bp k2).getD i 0 = (forwardList L bp k).getD i 0 := by
  induction k2, hle using Nat.le_induction with
  | base => rfl
  | succ n hn ihn =>
    rw [show forwardList L bp (n + 1) = forwardList L bp n ++
      [(bp n - ∑ j ∈ Finset.range n, L n j * (forwardList L bp n).getD j 0) / L n n]
      from rfl]
    rw [List.getD_append _ _ _ _ (by rw [forwardList_length]; omega)]
    exact ihn

theorem forwardList_val {L : Mat} {bp : Nat → ℚ} : ∀ {k i : Nat}, i < k →
    (forwardList L bp k).getD i 0 =
      (bp i - ∑ j ∈ Finset.range i, L i j * (forwardList L bp k).getD j 0) / L i i := by
  intro k i hi
  have h1 : (forwardList L bp k).getD i 0 = (forwardList L bp (i + 1)).getD i 0 :=
    forwardList_stable (by omega) (by omega)
  have h2 : (forwardList L bp (i + 1)).getD i 0 =
      (bp i - ∑ j ∈ Finset.range i, L i j * (forwardList L bp i).getD j 0) / L i i := by
    rw [show forwardList L bp (i + 1) = forwardList L bp i ++
      [(bp i - ∑ j ∈ Finset.range i, L i j * (forwardList L bp i).getD j 0) / L i i]
      from rfl]
    rw [List.getD_append_right _ _ _ _ (by rw [forwardList_length])]
    rw [forwardList_length]
    simp
  rw [h1, h2]
  congr 2
  apply Finset.sum_congr rfl
  intro j hj
  have hj2 : j < i := Finset.mem_range.mp hj
  rw [forwardList_stable (show i ≤ k by omega) hj2]

theorem forward_correct {L : Mat} {bp : Nat → ℚ} {nn : Nat}
    (hL0 : ∀ a b, a < b → L a b = 0) (hL1 : ∀ a, a < nn → L a a ≠ 0) :
    ∀ i, i < nn → matVec nn L (fun r => (forwardList L bp nn).getD r 0) i = bp i := by
  intro i hi
  unfold matVec
  have hzero : ∀ k ∈ Finset.range nn, k ∉ Finset.range (i + 1) →
      L i k * (forwardList L bp nn).getD k 0 = 0 := by
    intro k _ hk
    have hik : i < k := by
      by_contra hc
      exact hk (Finset.mem_range.mpr (by omega))
    rw [hL0 i k hik, zero_mul]
  rw [← Finset.sum_subset (Finset.range_subset.mpr (by omega : i + 1 ≤ nn)) hzero]
  rw [Finset.sum_range_succ]
  rw [forwardList_val hi, mul_comm, div_mul_cancel₀ _ (hL1 i hi)]
  ring

theorem backList_cons (U : Mat) (y : Nat → ℚ) (nn k : Nat) :
    backList U y nn (k + 1) =
      ((y (nn - (k + 1)) - ∑ j ∈ Finset.Ico (nn - (k + 1) + 1) nn,
          U (nn - (k + 1)) j * (backList U y nn k).getD (j - (nn - (k + 1) + 1)) 0) /
        U (nn - (k + 1)) (nn - (k + 1))) :: backList U y nn k := rfl

theorem backList_shift {U : Mat} {y : Nat → ℚ} {nn : Nat} :
    ∀ k m, m < k → (backList U y nn k).getD m 0 = (backList U y nn (k - m)).getD 0 0 := by
  intro k
  induction k with
  | zero => intro m hm; omega
  | succ k ih =>
    intro m hm
    match m with
    | 0 => rfl
    | m + 1 =>
      rw [backList_cons, List.getD_cons_succ]
      have harg : k + 1 - (m + 1) = k - m := by omega
      rw [harg]
      exact ih m (by omega)

theorem backList_val {U : Mat} {y : Nat → ℚ} {nn : Nat} :
    ∀ i, i < nn → (backList U y nn nn).getD i 0 =
      (y i - ∑ j ∈ Finset.Ico (i + 1) nn, U i j * (backList U y nn nn).getD j 0) /
        U i i := by
  intro i hi
  have h1 : (backList U y nn nn).getD i 0 = (backList U y nn (nn - i)).getD 0 0 :=
    backList_shift nn i hi
  have hk : nn - i = (nn - i - 1) + 1 := by omega
  rw [h1, hk, backList_cons]
  rw [List.getD_cons_zero]
  have hni : nn - ((nn - i - 1) + 1) = i := by omega
  rw [hni]
  congr 2
  apply Finset.sum_congr rfl
  intro j hj
  have hj2 := Finset.mem_Ico.mp hj
  congr 1
  have h2 : (backList U y nn (nn - i - 1)).getD (j - (i + 1)) 0 =
      (backList U y nn (nn - i - 1 - (j - (i + 1)))).getD 0 0 :=
    backList_shift _ _ (by omega)
  have h3 : (backList U y nn nn).getD j 0 = (backList U y nn (nn - j)).getD 0 0 :=
    backList_shift nn j (by omega)
  rw [h2, h3]
  congr 2
  omega

theorem back_correct {U : Mat} {y : Nat → ℚ} {nn : Nat}
    (hU0 : ∀ a b, b < a → U a b = 0) (hU1 : ∀ a, a < nn → U a a ≠ 0) :
    ∀ i, i < nn → matVec nn U (fun r => (backList U y nn nn).getD r 0) i = y i := by
  intro i hi
  show ∑ k ∈ Finset.range nn, U i k * (backList U y nn nn).getD k 0 = y i
  rw [Finset.range_eq_Ico]
  rw [← Finset.sum_Ico_consecutive _ (by omega : 0 ≤ i + 1) (by omega : i + 1 ≤ nn)]
  rw [← Finset.range_eq_Ico]
  rw [Finset.sum_range_succ]
  have hz : ∑ k ∈ Finset.range i, U i k * (backList U y nn nn).getD k 0 = 0 := by
    apply Finset.sum_eq_zero
    intro k hk
    rw [hU0 i k (Finset.mem_range.mp hk), zero_mul]
  rw [hz, backList_val i hi, mul_comm, div_mul_cancel₀ _ (hU1 i hi)]
  ring

theorem matVec_matMul {nn : Nat} {A B : Mat} {v : Nat → ℚ} {i : Nat} :
    matVec nn (matMul nn A B) v i = matVec nn A (matVec nn B v) i := by
  show ∑ k ∈ Finset.range nn, (∑ m ∈ Finset.range nn, A i m * B m k) * v k =
    ∑ m ∈ Finset.range nn, A i m * ∑ k ∈ Finset.range nn, B m k * v k
  simp only [Finset.sum_mul]
  rw [Finset.sum_comm]
  apply Finset.sum_congr rfl
  intro m _
  rw [Finset.mul_sum]
  apply Finset.sum_congr rfl
  intro k _
  ring

theorem matVec_congr {nn : Nat} {A : Mat} {v w : Nat → ℚ} {i : Nat}
    (h : ∀ k, k < nn → v k = w k) : matVec nn A v i = matVec nn A w i := by
  unfold matVec
  apply Finset.sum_congr rfl
  intro k hk
  rw [h k (Finset.mem_range.mp hk)]

theorem matVec_entry_congr {nn : Nat} {A B : Mat} {v : Nat → ℚ} {i : Nat}
    (h : ∀ k, k < nn → A i k = B i k) : matVec nn A v i = matVec nn B v i := by
  unfold matVec
  apply Finset.sum_congr rfl
  intro k hk
  rw [h k (Finset.mem_range.mp hk)]

theorem matVec_matrixP {nn : Nat} {P : List Nat} {w : Nat → ℚ} {r : Nat}
    (hr : P.getD r 0 < nn) : matVec nn (matrixP P) w r = w (P.getD r 0) := by
  unfold matVec matrixP
  have hcong : ∀ i ∈ Finset.range nn,
      (if P.getD r 0 = i then (1 : ℚ) else 0) * w i =
      if P.getD r 0 = i then w i else 0 := by
    intro i _
    by_cases h : P.getD r 0 = i <;> simp [h]
  rw [Finset.sum_congr rfl hcong, Finset.sum_ite_eq]
  rw [if_pos (Finset.mem_range.mpr hr)]

theorem LUfun_solves {M : Mat} {nn fuel : Nat} {P : List Nat} {d : ℤ} {L U : Mat}
    (h : LUfun M nn fuel = .ok (P, d, L, U)) (hdiag : ∀ j < nn, U j j ≠ 0)
    (b : Nat → ℚ) :
    ∀ r, r < nn → matVec nn M (fbSub L U (matrixP P) b nn) r = b r := by
  obtain ⟨hpl, hdp, hL, hU⟩ := LUfun_ok_parts h
  obtain ⟨hlen, hnd, hval, hpiv⟩ := pivotList_sound hpl
  have hmul := LUfun_mul h hdiag
  have hL0 : ∀ a c, a < c → L a c = 0 := by
    intro a c hac
    rw [hL]
    unfold lowerOf
    rw [if_neg (show ¬a = c by omega), if_pos hac]
  have hL1 : ∀ a, a < nn → L a a ≠ 0 := by
    intro a _
    rw [hL]
    unfold lowerOf
    rw [if_pos rfl]
    exact one_ne_zero
  have hU0 : ∀ a c, c < a → U a c = 0 := by
    intro a c hca
    rw [hU]
    unfold upperOf
    rw [if_pos hca]
  set x := fbSub L U (matrixP P) b nn with hx
  set bp := matVec nn (matrixP P) b with hbp
  set y : Nat → ℚ := fun r => (forwardList L bp nn).getD r 0 with hy
  have hxdef : x = fun i => (backList U y nn nn).getD i 0 := rfl
  have hback : ∀ i, i < nn → matVec nn U x i = y i := by
    intro i hi
    rw [hxdef]
    exact back_correct hU0 hdiag i hi
  have hfwd : ∀ i, i < nn → matVec nn L y i = bp i := forward_correct hL0 hL1
  have hkey : ∀ r, r < nn → matVec nn (matrixP P) (matVec nn M x) r = bp r := by
    intro r hr
    calc matVec nn (matrixP P) (matVec nn M x) r
        = matVec nn (matMul nn (matrixP P) M) x r := matVec_matMul.symm
      _ = matVec nn (matMul nn L U) x r :=
          matVec_entry_congr (fun k hk => hmul r hr k hk)
      _ = matVec nn L (matVec nn U x) r := matVec_matMul
      _ = matVec nn L y r := matVec_congr hback
      _ = bp r := hfwd r hr
  intro r hr
  obtain ⟨c, hc, hcr⟩ := pivot_surj hnd hlen hval r hr
  have h1 := hkey c hc
  rw [matVec_matrixP (hval c hc), hbp, matVec_matrixP (hval c hc)] at h1
  rw [← hcr]
  exact h1

/-- C5 counterexample: the claim "for every invertible M and every b, fb_sub applied to
LU(M)'s output solves M·x = b" fails.  Abad = [[1,1,0],[1,1,1],[0,1,1]] is invertible
and LU returns, but the Crout loop divides by the zero pivot U[1,1]=0, and for
b = (1,1,1) the computed x has (M·x)[0] ≠ b[0] (in floats, nan). -/
theorem claim_C5_counterexample :
    MatInvertible 3 Abad ∧
    ∃ P d L U, LUfun Abad 3 9 = .ok (P, d, L, U) ∧
      matVec 3 Abad (fbSub L U (matrixP P) bOnes 3) 0 ≠ bOnes 0 := by
  constructor
  · exact Abad_invertible
  · refine ⟨[1, 0, 2], -1,
      lowerOf (LUcombined (matMul 3 (matrixP [1, 0, 2]) Abad) 3),
      upperOf (LUcombined (matMul 3 (matrixP [1, 0, 2]) Abad) 3), ?_, ?_⟩
    · with_unfolding_all rfl
    · norm_num [fbSub, forwardList, backList, matVec, LUcombined, LUcombinedAux,
        croutU, croutL, croutUAux, croutLAux, lowerOf, upperOf, List.range_succ,
        List.range', setM, matMul, matrixP, Abad, matOf, Finset.sum_range_succ,
        Finset.sum_Ico_succ_top, Finset.Ico_self, List.getD, bOnes]

/-- C5 amended: for every matrix M on which LU returns a decomposition whose U has a
fully nonzero diagonal, and every vector b, the x produced by fb_sub satisfies
M·x = b exactly, entrywise on the n-block. -/
theorem claim_C5_amended (M : Mat) (nn fuel : Nat) (P : List Nat) (d : ℤ) (L U : Mat)
    (b : Nat → ℚ) (h : LUfun M nn fuel = .ok (P, d, L, U))
    (hdiag : ∀ j < nn, U j j ≠ 0) :
    ∀ r < nn, matVec nn M (fbSub L U (matrixP P) b nn) r = b r :=
  LUfun_solves h hdiag b

/-- Witness for the amended C5 at the identity matrix of size 2 with b = (1,1). -/
theorem claim_C5_witness :
    (∀ j < 2, upperOf (LUcombined (matMul 2 (matrixP [0, 1]) idMat) 2) j j ≠ 0) ∧
    (∀ r < 2, matVec 2 idMat
      (fbSub (lowerOf (LUcombined (matMul 2 (matrixP [0, 1]) idMat) 2))
        (upperOf (LUcombined (matMul 2 (matrixP [0, 1]) idMat) 2))
        (matrixP [0, 1]) bOnes 2) r = bOnes r) :=
  ⟨by
    intro j hj
    interval_cases j <;>
      norm_num [LUcombined, LUcombinedAux, croutU, croutL, croutUAux, croutLAux,
        upperOf, List.range_succ, List.range', setM, matMul, matrixP, idMat,
        Finset.sum_range_succ, List.getD],
   claim_C5_amended idMat 2 5 [0, 1] 1
    (lowerOf (LUcombined (matMul 2 (matrixP [0, 1]) idMat) 2))
    (upperOf (LUcombined (matMul 2 (matrixP [0, 1]) idMat) 2)) bOnes rfl
    (by
      intro j hj
      interval_cases j <;>
        norm_num [LUcombined, LUcombinedAux, croutU, croutL, croutUAux, croutLAux,
          upperOf, List.range_succ, List.range', setM, matMul, matrixP, idMat,
          Finset.sum_range_succ, List.getD])⟩

/-- C7: when the direct-assignment step `_check_unused` succeeds, the selected row is
an unused row with a nonzero entry in the column attaining the largest signed value
`M[row, col]` among all such rows; it is appended to `used` and stored at `P[col]`
(the latter whenever `col` is within the append-or-set reach of `P`, as at every call
site of the algorithm). -/
theorem claim_C7 (M : Mat) (nn col : Nat) (st st' : PivSt)
    (h : checkUnused M nn col st = (true, st')) :
    ∃ r, r < nn ∧ r ∉ st.used ∧ M r col ≠ 0 ∧
      (∀ x, x < nn → x ∉ st.used → M x col ≠ 0 → M x col ≤ M r col) ∧
      st'.used = st.used ++ [r] ∧
      (col ≤ st.P.length → st'.P.getD col 0 = r) := by
  rcases checkUnused_true_spec h with ⟨r, hr, hru, hM, hst, hmax⟩
  refine ⟨r, hr, hru, hM, ?_, by rw [hst], ?_⟩
  · intro x hx hxu hxM
    have hge := hmax x hx hxu hxM
    unfold entryGE at hge
    rcases hge with h1 | ⟨h1, _⟩
    · exact le_of_lt h1
    · exact le_of_eq h1.symm
  · intro hcol
    rw [hst]
    exact setPy_getD_self hcol r

/-- Witness for C7 on the all-ones 2×2 matrix at column 0 with empty state: the step
succeeds, selecting row 1. -/
theorem claim_C7_witness :
    checkUnused Mones 2 0 ⟨[], []⟩ = (true, ⟨[1], [1]⟩) ∧
    (∃ r, r < 2 ∧ r ∉ (PivSt.mk [] []).used ∧ Mones r 0 ≠ 0 ∧
      (∀ x, x < 2 → x ∉ (PivSt.mk [] []).used → Mones x 0 ≠ 0 →
        Mones x 0 ≤ Mones r 0) ∧
      (PivSt.mk [1] [1]).used = (PivSt.mk [] []).used ++ [r] ∧
      (0 ≤ (PivSt.mk [] []).P.length → (PivSt.mk [1] [1]).P.getD 0 0 = r)) :=
  ⟨by decide, claim_C7 Mones 2 0 ⟨[], []⟩ ⟨[1], [1]⟩ (by decide)⟩

/-- C10: the implicit tie-break.  When `_check_unused` succeeds, every unused
nonzero-entry row whose value ties with the selected row has a row index no larger
than the selected one: `(value, row)` pairs are sorted descending, so ties go to the
largest row index, and the selection is a deterministic function of the inputs (the
embedding is a function). -/
theorem claim_C10 (M : Mat) (nn col : Nat) (st st' : PivSt)
    (h : checkUnused M nn col st = (true, st')) :
    ∃ r, r < nn ∧ r ∉ st.used ∧ M r col ≠ 0 ∧ st'.used = st.used ++ [r] ∧
      ∀ x, x < nn → x ∉ st.used → M x col ≠ 0 → M x col = M r col → x ≤ r := by
  rcases checkUnused_true_spec h with ⟨r, hr, hru, hM, hst, hmax⟩
  refine ⟨r, hr, hru, hM, by rw [hst], ?_⟩
  intro x hx hxu hxM heq
  have hge := hmax x hx hxu hxM
  unfold entryGE at hge
  rcases hge with h1 | ⟨_, h2⟩
  · rw [heq] at h1
    exact absurd h1 (lt_irrefl _)
  · exact h2

/-- Witness for C10 on the all-ones 2×2 matrix at column 0 with empty state: rows 0
and 1 tie at value 1 and the larger index, row 1, is selected. -/
theorem claim_C10_witness :
    checkUnused Mones 2 0 ⟨[], []⟩ = (true, ⟨[1], [1]⟩) ∧
    (∃ r, r < 2 ∧ r ∉ (PivSt.mk [] []).used ∧ Mones r 0 ≠ 0 ∧
      (PivSt.mk [1] [1]).used = (PivSt.mk [] []).used ++ [r] ∧
      ∀ x, x < 2 → x ∉ (PivSt.mk [] []).used → Mones x 0 ≠ 0 →
        Mones x 0 = Mones r 0 → x ≤ r) :=
  ⟨by decide, claim_C10 Mones 2 0 ⟨[], []⟩ ⟨[1], [1]⟩ (by decide)⟩

/-- C8: `simul_solve` with no cached decomposition returns exactly `fb_sub` applied to
`LU(M)`'s output; with a cached decomposition it returns `fb_sub` applied to the
supplied values, and the result is completely independent of the matrix and of the
decomposition budget — `LU` is not invoked. -/
theorem claim_C8 (M : Mat) (nn : Nat) (b : Nat → ℚ) (fuel : Nat) :
    (∀ (P : List Nat) (d : ℤ) (L U : Mat), LUfun M nn fuel = .ok (P, d, L, U) →
      simulSolve M nn b fuel none = .ok (fbSub L U (matrixP P) b nn)) ∧
    (∀ (P : List Nat) (d : ℤ) (L U : Mat),
      simulSolve M nn b fuel (some (P, d, L, U)) =
        .ok (fbSub L U (matrixP P) b nn)) ∧
    (∀ (M2 : Mat) (fuel2 : Nat) (c : List Nat × ℤ × Mat × Mat),
      simulSolve M nn b fuel (some c) = simulSolve M2 nn b fuel2 (some c)) := by
  refine ⟨?_, ?_, ?_⟩
  · intro P d L U h
    simp only [simulSolve, h]
  · intro P d L U
    rfl
  · intro M2 fuel2 c
    rcases c with ⟨P, d, L, U⟩
    rfl

/-- Witness for C8: on the 2×2 identity the uncached wrapper returns `fb_sub` of the
decomposition that `LU` returns. -/
theorem claim_C8_witness :
    simulSolve idMat 2 bOnes 5 none =
      .ok (fbSub (lowerOf (LUcombined (matMul 2 (matrixP [0, 1]) idMat) 2))
        (upperOf (LUcombined (matMul 2 (matrixP [0, 1]) idMat) 2))
        (matrixP [0, 1]) bOnes 2) :=
  (claim_C8 idMat 2 bOnes 5).1 [0, 1] 1
    (lowerOf (LUcombined (matMul 2 (matrixP [0, 1]) idMat) 2))
    (upperOf (LUcombined (matMul 2 (matrixP [0, 1]) idMat) 2)) rfl

/-! ## Frame property of the heap-level `LU` -/

theorem hwrite_mem_ne {h : Heap} {t s i j : Nat} {v : ℚ} (hst : s ≠ t) :
    (hwrite h t i j v).mem s = h.mem s := by
  simp [hwrite, hst]

theorem foldl_mem_eq {α : Type} {s : Nat} {step : Heap → α → Heap}
    (hstep : ∀ h a, (step h a).mem s = h.mem s) :
    ∀ (l : List α) (h : Heap), (l.foldl step h).mem s = h.mem s := by
  intro l
  induction l with
  | nil => intro h; rfl
  | cons a l ih =>
    intro h
    rw [List.foldl_cons, ih, hstep]

theorem croutUH_mem_ne {t s : Nat} (hst : s ≠ t) (h : Heap) (j : Nat) :
    (croutUH h t j).mem s = h.mem s := by
  unfold croutUH
  exact foldl_mem_eq (fun h a => hwrite_mem_ne hst) _ h

theorem croutLH_mem_ne {t s : Nat} (hst : s ≠ t) (h : Heap) (nn j : Nat) :
    (croutLH h t nn j).mem s = h.mem s := by
  unfold croutLH
  exact foldl_mem_eq (fun h a => hwrite_mem_ne hst) _ h

theorem croutLoopH_mem_ne {t s : Nat} (hst : s ≠ t) (h : Heap) (nn : Nat) :
    (croutLoopH h t nn).mem s = h.mem s := by
  unfold croutLoopH
  exact foldl_mem_eq
    (fun h j => by rw [croutLH_mem_ne hst, croutUH_mem_ne hst]) _ h

/-- C9: `LU` never mutates the caller's buffer.  In the heap model every reference
allocated before the call — in particular the caller's matrix — holds exactly the
same buffer after `LU` returns or raises: all in-place writes target the freshly
allocated product buffer. -/
theorem claim_C9 (h : Heap) (r nn fuel : Nat) :
    ∀ s, s < h.next → (LUheap h r nn fuel).2.mem s = h.mem s := by
  intro s hs
  unfold LUheap
  simp only [halloc]
  have hs1 : ¬s = h.next := by omega
  have hs2 : ¬s = h.next + 1 := by omega
  have hs3 : ¬s = h.next + 2 := by omega
  split
  · show (if s = h.next + 1 then _ else if s = h.next then _ else h.mem s) = h.mem s
    rw [if_neg hs2, if_neg hs1]
  · show (if s = h.next + 1 then _ else if s = h.next then _ else h.mem s) = h.mem s
    rw [if_neg hs2, if_neg hs1]
  · split
    · show (if s = h.next + 1 then _ else if s = h.next then _ else h.mem s) = h.mem s
      rw [if_neg hs2, if_neg hs1]
    · show (croutLoopH _ (h.next + 2) nn).mem s = h.mem s
      rw [croutLoopH_mem_ne hs3]
      show (if s = h.next + 2 then _
        else if s = h.next + 1 then _ else if s = h.next then _ else h.mem s) = h.mem s
      rw [if_neg hs3, if_neg hs2, if_neg hs1]

/-- Witness for the frame property: the heap holding `Abad` at reference `0` is
untouched at `0` by a successful `LU` run. -/
theorem claim_C9_witness :
    (0 : Nat) < heap0.next ∧ (LUheap heap0 0 3 9).2.mem 0 = heap0.mem 0 :=
  ⟨by decide, claim_C9 heap0 0 3 9 0 (by decide)⟩

/-! ## `_det_P` computes the permutation sign (C4) -/

theorem negOnePowZ_natCast (m : Nat) : negOnePowZ (m : ℤ) = (-1 : ℤ) ^ m := by
  unfold negOnePowZ
  by_cases h : m % 2 = 0
  · rw [if_pos (by omega), (Nat.even_iff.mpr h).neg_one_pow]
  · rw [if_neg (by omega), (Nat.odd_iff.mpr (by omega)).neg_one_pow]

theorem foldl_mul_prod {α : Type} (g : α → ℤ) :
    ∀ (l : List α) (init : ℤ),
      l.foldl (fun n x => n * g x) init = init * (l.map g).prod := by
  intro l
  induction l with
  | nil => intro init; simp
  | cons a l ih =>
    intro init
    rw [List.foldl_cons, ih, List.map_cons, List.prod_cons]
    ring

theorem enum_map_prod (g : Nat × Nat → ℤ) (l : List Nat) :
    (l.enum.map g).prod = ∏ i ∈ Finset.range l.length, g (i, l.getD i 0) := by
  induction l using List.reverseRecOn with
  | nil => simp
  | append_singleton l a ih =>
    rw [List.enum_append]
    rw [show List.enumFrom l.length [a] = [(l.length, a)] from rfl]
    rw [List.map_append, List.prod_append, ih]
    rw [show (l ++ [a]).length = l.length + 1 from by simp]
    rw [Finset.prod_range_succ]
    congr 1
    · apply Finset.prod_congr rfl
      intro i hi
      have hil : i < l.length := Finset.mem_range.mp hi
      rw [List.getD_append _ _ _ _ hil]
    · rw [List.getD_append_right _ _ _ _ (le_refl _)]
      simp

theorem take_filter_card {v : List Nat} {c : Nat} :
    ∀ {p : Nat}, p ≤ v.length →
      ((v.take p).filter (fun x => decide (x < c))).length =
        ((Finset.range p).filter (fun k => v.getD k 0 < c)).card := by
  intro p
  induction p with
  | zero => intro _; simp
  | succ p ih =>
    intro hp
    have hp2 : p < v.length := by omega
    rw [List.take_succ]
    rw [List.getElem?_eq_getElem hp2]
    rw [show (some v[p]).toList = [v[p]] from rfl]
    rw [List.filter_append, List.length_append]
    rw [ih (by omega)]
    rw [Finset.range_succ, Finset.filter_insert]
    have hpd : v.getD p 0 = v[p] := List.getD_eq_getElem v 0 hp2
    by_cases hc : v[p] < c
    · rw [if_pos (by rw [hpd]; exact hc)]
      rw [Finset.card_insert_of_not_mem (by simp)]
      have hfl : List.filter (fun x => decide (x < c)) [v[p]] = [v[p]] := by simp [hc]
      rw [hfl]
      simp
    · rw [if_neg (by rw [hpd]; exact hc)]
      have hfl : List.filter (fun x => decide (x < c)) [v[p]] = [] := by simp [hc]
      rw [hfl]
      simp

theorem perm_val_count {v : List Nat} {nn : Nat} (hlen : v.length = nn) (hnd : v.Nodup)
    (hval : ∀ i < nn, v.getD i 0 < nn) {p : Nat} (hp : p < nn) :
    ((Finset.range nn).filter (fun k => v.getD k 0 < v.getD p 0)).card = v.getD p 0 := by
  have hcn : v.getD p 0 < nn := hval p hp
  have h1 : ((Finset.range nn).filter (fun k => v.getD k 0 < v.getD p 0)).card =
      ((Finset.range nn).filter (fun x => x < v.getD p 0)).card := by
    apply Finset.card_nbij (fun k => v.getD k 0)
    · intro a ha
      have hm := Finset.mem_filter.mp ha
      exact Finset.mem_filter.mpr
        ⟨Finset.mem_range.mpr (hval a (Finset.mem_range.mp hm.1)), hm.2⟩
    · intro a ha b hb hab
      have hma := Finset.mem_filter.mp (Finset.mem_coe.mp ha)
      have hmb := Finset.mem_filter.mp (Finset.mem_coe.mp hb)
      exact pivot_getD_inj hnd
        (by rw [hlen]; exact Finset.mem_range.mp hma.1)
        (by rw [hlen]; exact Finset.mem_range.mp hmb.1) hab
    · intro x hx
      have hmx := Finset.mem_filter.mp (Finset.mem_coe.mp hx)
      obtain ⟨k, hk, hkx⟩ := pivot_surj hnd hlen hval x (Finset.mem_range.mp hmx.1)
      refine ⟨k, ?_, hkx⟩
      exact Finset.mem_coe.mpr (Finset.mem_filter.mpr
        ⟨Finset.mem_range.mpr hk, by rw [hkx]; exact hmx.2⟩)
  rw [h1]
  have h2 : (Finset.range nn).filter (fun x => x < v.getD p 0) =
      Finset.range (v.getD p 0) := by
    ext x
    simp only [Finset.mem_filter, Finset.mem_range]
    omega
  rw [h2, Finset.card_range]

theorem perm_resid {v : List Nat} {nn : Nat} (hlen : v.length = nn) (hnd : v.Nodup)
    (hval : ∀ i < nn, v.getD i 0 < nn) {p : Nat} (hp : p < nn) :
    (v.getD p 0 : ℤ) -
      (((Finset.range p).filter (fun k => v.getD k 0 < v.getD p 0)).card : ℤ) =
      (cntPost v nn p : ℤ) := by
  have hsplit : ((Finset.range nn).filter (fun k => v.getD k 0 < v.getD p 0)).card
      = ((Finset.range p).filter (fun k => v.getD k 0 < v.getD p 0)).card +
        cntPost v nn p := by
    unfold cntPost
    rw [Finset.card_filter, Finset.card_filter, Finset.card_filter]
    rw [Finset.range_eq_Ico]
    rw [← Finset.sum_Ico_consecutive _ (Nat.zero_le p) (le_of_lt hp)]
    congr 1
    rw [Finset.sum_eq_sum_Ico_succ_bot hp]
    rw [if_neg (lt_irrefl _)]
    rw [zero_add]
  have hv := perm_val_count hlen hnd hval hp
  omega

theorem detP_prod {v : List Nat} (h : v ≠ []) :
    detP v = some (∏ p ∈ Finset.range (Nat.max 1 (v.length - 1)), detPtermZ v p) := by
  rcases v with _ | ⟨v0, rest⟩
  · exact absurd rfl h
  rcases rest with _ | ⟨r1, rest2⟩
  · simp only [detP]
    simp [detPtermZ]
  · simp only [detP]
    rw [foldl_mul_prod]
    rw [enum_map_prod]
    congr 1
    have hlt : ((v0 :: r1 :: rest2).tail.dropLast).length = rest2.length := by
      simp
    have hlen2 : (v0 :: r1 :: rest2).length - 1 = rest2.length + 1 := by simp
    rw [hlt, hlen2]
    rw [show Nat.max 1 (rest2.length + 1) = rest2.length + 1 from
      Nat.max_eq_right (by omega)]
    rw [Finset.prod_range_succ']
    rw [mul_comm]
    congr 1
    · apply Finset.prod_congr rfl
      intro i hi
      have hil : i < rest2.length := Finset.mem_range.mp hi
      have hget : ((v0 :: r1 :: rest2).tail.dropLast).getD i 0 =
          (v0 :: r1 :: rest2).getD (i + 1) 0 := by
        rw [List.getD_cons_succ]
        rw [List.getD_eq_getElem _ 0 (by simpa using hil),
          List.getD_eq_getElem _ 0 (by simp; omega)]
        exact List.getElem_dropLast _ _ _
      rw [hget]
      rfl

theorem detP_eq_pow {v : List Nat} {nn : Nat} (hlen : v.length = nn) (hpos : 0 < nn)
    (hnd : v.Nodup) (hval : ∀ i < nn, v.getD i 0 < nn) :
    detP v = some ((-1 : ℤ) ^ invNum v nn) := by
  have hne : v ≠ [] := by
    intro hnil
    rw [hnil] at hlen
    simp at hlen
    omega
  rw [detP_prod hne, hlen]
  congr 1
  have hterm : ∀ p, p < nn → detPtermZ v p = (-1 : ℤ) ^ cntPost v nn p := by
    intro p hp
    unfold detPtermZ
    rw [take_filter_card (show p ≤ v.length by omega)]
    rw [perm_resid hlen hnd hval hp]
    exact negOnePowZ_natCast _
  have hext : ∏ p ∈ Finset.range (Nat.max 1 (nn - 1)), detPtermZ v p
      = ∏ p ∈ Finset.range nn, (-1 : ℤ) ^ cntPost v nn p := by
    rcases Nat.lt_or_ge nn 2 with h2 | h2
    · have h1 : nn = 1 := by omega
      subst h1
      exact Finset.prod_congr rfl (fun p hpm => hterm p (Finset.mem_range.mp hpm))
    · rw [show Nat.max 1 (nn - 1) = nn - 1 from Nat.max_eq_right (by omega)]
      rw [show Finset.range nn = Finset.range ((nn - 1) + 1) from by
        congr 1
        omega]
      rw [Finset.prod_range_succ]
      have hlast : cntPost v nn (nn - 1) = 0 := by
        unfold cntPost
        rw [show nn - 1 + 1 = nn from by omega]
        simp
      rw [hlast, pow_zero, mul_one]
      exact Finset.prod_congr rfl
        (fun p hpm => hterm p (by have := Finset.mem_range.mp hpm; omega))
  rw [hext, Finset.prod_pow_eq_pow_sum]
  rfl

theorem exists_perm_of_list {v : List Nat} {nn : Nat} (hlen : v.length = nn)
    (hval : ∀ i < nn, v.getD i 0 < nn) (hnd : v.Nodup) :
    ∃ σ : Equiv.Perm (Fin nn), ∀ i : Fin nn, (σ i).val = v.getD i.val 0 := by
  have hinj : Function.Injective
      (fun i : Fin nn => (⟨v.getD i.val 0, hval i.val i.isLt⟩ : Fin nn)) := by
    intro a b hab
    have h2 : v.getD a.val 0 = v.getD b.val 0 := by
      have := congrArg Fin.val hab
      simpa using this
    exact Fin.ext (pivot_getD_inj hnd (by rw [hlen]; exact a.isLt)
      (by rw [hlen]; exact b.isLt) h2)
  exact ⟨Equiv.ofBijective _ (Finite.injective_iff_bijective.mp hinj), fun i => rfl⟩

theorem sign_eq_signAux {n : ℕ} (σ : Equiv.Perm (Fin n)) :
    Equiv.Perm.sign σ = Equiv.Perm.signAux σ := by
  refine Equiv.Perm.swap_induction_on σ ?_ ?_
  · rw [Equiv.Perm.sign_one, Equiv.Perm.signAux_one]
  · intro f x y hxy hf
    rw [Equiv.Perm.sign_mul, Equiv.Perm.signAux_mul, hf,
      Equiv.Perm.sign_swap hxy, Equiv.Perm.signAux_swap hxy]

theorem mem_pairsGT {nn : Nat} {pr : Nat × Nat} :
    pr ∈ pairsGT nn ↔ pr.1 < nn ∧ pr.2 < nn ∧ pr.2 < pr.1 := by
  unfold pairsGT
  simp [Finset.mem_filter, Finset.mem_product, Finset.mem_range, and_assoc]

theorem signAux_eq_pow {v : List Nat} {nn : Nat} (hlen : v.length = nn) (hnd : v.Nodup)
    (σ : Equiv.Perm (Fin nn)) (hσ : ∀ i : Fin nn, (σ i).val = v.getD i.val 0) :
    Equiv.Perm.signAux σ = (-1 : ℤˣ) ^ invNum v nn := by
  rw [show Equiv.Perm.signAux σ =
    ∏ x ∈ Equiv.Perm.finPairsLT nn, (if σ x.1 ≤ σ x.2 then (-1 : ℤˣ) else 1) from rfl]
  have hstep : ∏ x ∈ Equiv.Perm.finPairsLT nn, (if σ x.1 ≤ σ x.2 then (-1 : ℤˣ) else 1)
      = ∏ pr ∈ pairsGT nn,
        (if v.getD pr.1 0 ≤ v.getD pr.2 0 then (-1 : ℤˣ) else 1) := by
    refine Finset.prod_bij' (fun x _ => (((x.1 : Fin nn) : Nat), ((x.2 : Fin nn) : Nat)))
      (fun pr hpr => ⟨⟨pr.1, (mem_pairsGT.mp hpr).1⟩, ⟨pr.2, (mem_pairsGT.mp hpr).2.1⟩⟩)
      ?_ ?_ ?_ ?_ ?_
    · intro x hx
      have hmem := Finset.mem_sigma.mp hx
      have hlt : ((x.2 : Fin nn) : Nat) < ((x.1 : Fin nn) : Nat) :=
        Finset.mem_range.mp ((Finset.mem_attachFin _).mp hmem.2)
      exact mem_pairsGT.mpr ⟨x.1.isLt, x.2.isLt, hlt⟩
    · intro pr hpr
      refine Finset.mem_sigma.mpr ⟨Finset.mem_univ _, ?_⟩
      exact (Finset.mem_attachFin _).mpr (Finset.mem_range.mpr (mem_pairsGT.mp hpr).2.2)
    · intro x hx
      rfl
    · intro pr hpr
      rfl
    · intro x hx
      have hiff : (σ x.1 ≤ σ x.2) ↔
          (v.getD ((x.1 : Fin nn) : Nat) 0 ≤ v.getD ((x.2 : Fin nn) : Nat) 0) := by
        rw [Fin.le_def, hσ x.1, hσ x.2]
      exact if_congr hiff rfl rfl
  rw [hstep]
  rw [Finset.prod_ite]
  rw [Finset.prod_const, Finset.prod_const_one, mul_one]
  congr 1
  have hmaps : ∀ pr ∈ (pairsGT nn).filter
      (fun pr => v.getD pr.1 0 ≤ v.getD pr.2 0), Prod.snd pr ∈ Finset.range nn := by
    intro pr hpr
    exact Finset.mem_range.mpr (mem_pairsGT.mp (Finset.mem_filter.mp hpr).1).2.1
  rw [Finset.card_eq_sum_card_fiberwise hmaps]
  unfold invNum
  apply Finset.sum_congr rfl
  intro p hp
  have hpn : p < nn := Finset.mem_range.mp hp
  symm
  unfold cntPost
  apply Finset.card_nbij (fun k => (k, p))
  · intro k hk
    have hkm := Finset.mem_filter.mp hk
    have hk2 := Finset.mem_Ico.mp hkm.1
    refine Finset.mem_filter.mpr ⟨Finset.mem_filter.mpr ⟨?_, le_of_lt hkm.2⟩, rfl⟩
    exact mem_pairsGT.mpr ⟨hk2.2, hpn, by omega⟩
  · intro a ha b hb hab
    exact congrArg Prod.fst hab
  · intro pr hpr
    have hm1 := Finset.mem_filter.mp (Finset.mem_coe.mp hpr)
    have hm2 := Finset.mem_filter.mp hm1.1
    have hm3 := mem_pairsGT.mp hm2.1
    have hsnd : pr.2 = p := hm1.2
    have hne : v.getD pr.1 0 ≠ v.getD p 0 := by
      intro heq
      have := pivot_getD_inj hnd (by rw [hlen]; exact hm3.1)
        (by rw [hlen]; exact hm3.2.1) (by rw [heq, hsnd])
      omega
    refine ⟨pr.1, ?_, ?_⟩
    · refine Finset.mem_coe.mpr (Finset.mem_filter.mpr ⟨?_, ?_⟩)
      · exact Finset.mem_Ico.mpr ⟨by omega, hm3.1⟩
      · have hle := hm2.2
        rw [hsnd] at hle
        omega
    · rw [← hsnd]

theorem finMatrixP_eq_permMatrix {v : List Nat} {nn : Nat} (σ : Equiv.Perm (Fin nn))
    (hσ : ∀ i : Fin nn, (σ i).val = v.getD i.val 0) :
    finMatrixP v nn = Equiv.Perm.permMatrix ℚ σ := by
  apply Matrix.ext
  intro r i
  show matrixP v r.val i.val = Equiv.Perm.permMatrix ℚ σ r i
  unfold Equiv.Perm.permMatrix
  rw [PEquiv.toMatrix_apply, Equiv.toPEquiv_apply]
  unfold matrixP
  have hiff : (v.getD r.val 0 = i.val) ↔ (i ∈ some (σ r)) := by
    rw [Option.mem_some_iff]
    constructor
    · intro hh
      exact Fin.ext (by rw [hσ r, hh])
    · intro hh
      rw [← hσ r, hh]
  exact if_congr hiff rfl rfl

/-- C4: for every nonempty list `P` that is a permutation of `{0..n-1}`, `_det_P(P)`
returns exactly `+1` or `-1`, and this value equals the determinant of the permutation
matrix built from `P` by `_matrix_P` — the sign computed via adjusted ranks is the true
permutation sign.  (On the empty list `_det_P` raises `IndexError` instead.) -/
theorem claim_C4 (P : List Nat) (nn : Nat) (hlen : P.length = nn) (hpos : 0 < nn)
    (hnd : P.Nodup) (hval : ∀ i < nn, P.getD i 0 < nn) :
    ∃ d : ℤ, detP P = some d ∧ (d = 1 ∨ d = -1) ∧
      (finMatrixP P nn).det = (d : ℚ) := by
  obtain ⟨σ, hσ⟩ := exists_perm_of_list hlen hval hnd
  refine ⟨(-1 : ℤ) ^ invNum P nn, detP_eq_pow hlen hpos hnd hval, ?_, ?_⟩
  · rcases Nat.even_or_odd (invNum P nn) with he | ho
    · exact Or.inl he.neg_one_pow
    · exact Or.inr ho.neg_one_pow
  · rw [finMatrixP_eq_permMatrix σ hσ, Matrix.det_permutation]
    rw [sign_eq_signAux σ, signAux_eq_pow hlen hnd σ hσ]
    rw [Units.val_pow_eq_pow_val, Units.coe_neg_one]

/-- Witness for C4 at the permutation `[1, 0, 2]` of `{0, 1, 2}` (one transposition,
sign `-1`). -/
theorem claim_C4_witness :
    ([1, 0, 2] : List Nat).length = 3 ∧ 0 < 3 ∧ ([1, 0, 2] : List Nat).Nodup ∧
    (∀ i < 3, ([1, 0, 2] : List Nat).getD i 0 < 3) ∧
    (∃ d : ℤ, detP [1, 0, 2] = some d ∧ (d = 1 ∨ d = -1) ∧
      (finMatrixP [1, 0, 2] 3).det = (d : ℚ)) :=
  ⟨rfl, by decide, by decide, by decide,
    claim_C4 [1, 0, 2] 3 rfl (by decide) (by decide) (by decide)⟩
